import Mathlib

/-! # lnav: view_curses (line renderer and style table)

A shallow embedding of `src/view_curses.hh` and `src/view_curses.cc`.

* `std::string` is a `List Char`; `string::npos` is `none`.
* C++ `int` / `size_t` values are `Int` / `Nat`; arithmetic overflow of `int`
  is not modelled (it is undefined behaviour in the source).
* A failed `assert` aborts the process: the functions that contain one return
  an `Option`, and `none` stands for the fatal assertion.
* The curses window is written through calls only; the calls the renderer
  issues are recorded, in order, as a list of `Op`.
* The curses attribute macros (`COLOR_PAIR`, `A_BOLD`, ...) come from the
  curses header, which is not part of the repository: they are taken as a
  parameter `curses_h`.
* The `std::map` of a line's attributes is the list of its entries in
  iteration order; `view_colors::init` is the list of the driver calls it
  makes.
-/

namespace ViewCurses

/-! ## std::string primitives used by the renderer -/

/-- The result of `std::string::find(char)`: the offset of the first occurrence
of `c`, or `none` for `string::npos`. -/
def find : List Char → Char → Option Nat
  | [], _ => none
  | a :: rest, c => if a = c then some 0 else (find rest c).map (· + 1)

/-- The result of `std::string::replace(pos, len, n, c)` and of
`replace(pos, len, str)` with `str = n` copies of `c`: the `len` characters at
`pos` give way to `fill`. -/
def replace (line : List Char) (pos len : Nat) (fill : List Char) : List Char :=
  line.take pos ++ fill ++ line.drop (pos + len)

/-! ## view_curses.hh : line_range, attr_line_t -/

/-- The C++ `INT_MAX` of a 32 bit `int`. -/
def INT_MAX : Int := 2147483647

/-- The struct `line_range`. -/
structure line_range where
  lr_start : Int
  lr_end : Int
  deriving DecidableEq, Repr

/-- The method `line_range::length`. -/
def line_range.length (r : line_range) : Int :=
  if r.lr_end = -1 then INT_MAX else r.lr_end - r.lr_start

/-- The type `attrs_map_t`, a multimap from a category name to a
`string_attr_t`, in iteration order; the union is read through `sa_int`. -/
abbrev attrs_map_t := List (String × Int)

/-- The type `string_attrs_t`, a map from `line_range` to `attrs_map_t`, given
by its entries in iteration order. -/
abbrev string_attrs_t := List (line_range × attrs_map_t)

/-- The class `attr_line_t`. -/
structure attr_line_t where
  al_string : List Char
  al_attrs : string_attrs_t
  deriving DecidableEq, Repr

/-! ## mvwattrline, lines 32-42 : the expansion pass -/

/-- The loop of lines 35-38: `while ((tab = line.find('\t')) != npos)`, pushing
`tab` on `tab_list` and replacing the tab by 8 spaces. `fuel` bounds the
number of iterations. -/
def expand_tabs : Nat → List Char → List Nat → List Char × List Nat
  | 0, line, tab_list => (line, tab_list)
  | fuel + 1, line, tab_list =>
    match find line '\t' with
    | none => (line, tab_list)
    | some tab =>
      expand_tabs fuel (replace line tab 1 (List.replicate 8 ' ')) (tab_list ++ [tab])

/-- The loop of lines 39-41: every carriage return found is replaced by one
space. `fuel` bounds the number of iterations. -/
def expand_crs : Nat → List Char → List Char
  | 0, line => line
  | fuel + 1, line =>
    match find line '\r' with
    | none => line
    | some tab => expand_crs fuel (replace line tab 1 [' '])

/-- Lines 32-42: the expanded text and the recorded `tab_list`. Each iteration
of either loop removes one tab (one carriage return) of the line, so the
length of the line bounds the iterations (`expand_tabs_fuel`,
`expand_crs_fuel`). -/
def expansion (line : List Char) : List Char × List Nat :=
  let r := expand_tabs line.length line []
  (expand_crs r.1.length r.1, r.2)

/-! ## std::lower_bound -/

/-- The loop of `std::lower_bound` over `a[first, first + len)`: halve the
range while it is not empty, keeping the half that holds the first element
not less than `val`. `fuel` bounds the number of iterations. The elements are
`size_t` and `val` an `int` that the assertions of `mvwattrline` keep
non-negative, so the comparison is the one of the integers. -/
def lower_bound_loop (a : List Nat) (val : Int) : Nat → Nat → Nat → Nat
  | 0, first, _ => first
  | fuel + 1, first, len =>
    if len = 0 then first
    else
      let half := len / 2
      let middle := first + half
      if (a.getD middle 0 : Int) < val then
        lower_bound_loop a val fuel (middle + 1) (len - half - 1)
      else
        lower_bound_loop a val fuel first half

/-- Modelled from the spec: `std::lower_bound(tab_list.begin(), tab_list.end(), val)`
of the C++ library, which is not part of the repository, as the offset
`tab_iter - tab_list.begin()` of the iterator it returns. It is the binary
search that section 4.2 (c) asks for. The range shrinks in every iteration, so
its length bounds the iterations. -/
def lower_bound (a : List Nat) (val : Int) : Nat :=
  lower_bound_loop a val a.length 0 a.length

/-! ## view_curses.hh / view_curses.cc : view_colors -/

/-- The attribute macros of the curses header that `view_colors` uses; the
header is not part of the repository. -/
structure curses_h where
  COLOR_PAIR : Int → Int
  A_REVERSE : Int
  A_DIM : Int
  A_BOLD : Int

/-- The values the macros have in ncurses: the colour pair number sits in bits
8-15, `A_REVERSE`, `A_DIM` and `A_BOLD` are bits 18, 20 and 21. Used where the
model is evaluated at a concrete input. -/
def ncurses : curses_h where
  COLOR_PAIR := fun n => Int.land (n * 256) 65280
  A_REVERSE := 262144
  A_DIM := 1048576
  A_BOLD := 2097152

def VCR_NONE : Int := -1
def VCR_TEXT : Int := 0
def VCR_SEARCH : Int := 1
def VCR_OK : Int := 2
def VCR_ERROR : Int := 3
def VCR_WARNING : Int := 4
def VCR_ALT_ROW : Int := 5
def VCR_STATUS : Int := 6
def VCR_WARN_STATUS : Int := 7
def VCR_ALERT_STATUS : Int := 8
def VCR_ACTIVE_STATUS : Int := 9
def VCR_ACTIVE_STATUS2 : Int := 10
def VCR__MAX : Int := 11

def VC_EMPTY : Int := 0
def VC_BLUE : Int := 1
def VC_CYAN : Int := 2
def VC_GREEN : Int := 3
def VC_MAGENTA : Int := 4
def VC_BLUE_ON_WHITE : Int := 5
def VC_CYAN_ON_BLACK : Int := 6
def VC_GREEN_ON_WHITE : Int := 7
def VC_MAGENTA_ON_WHITE : Int := 8
def VC_RED : Int := 9
def VC_YELLOW : Int := 10
def VC_WHITE : Int := 11
def VC_BLACK_ON_WHITE : Int := 12
def VC_YELLOW_ON_WHITE : Int := 13
def VC_RED_ON_WHITE : Int := 14
def VC_WHITE_ON_GREEN : Int := 15

/-- The constant `view_colors::HL_COLOR_COUNT`. -/
def HL_COLOR_COUNT : Int := 4

/-- The member fields of `view_colors`; the two arrays have
`VCR__MAX + (HL_COLOR_COUNT * 2)` elements. -/
structure view_colors where
  vc_role_colors : List Int
  vc_role_reverse_colors : List Int
  vc_next_highlight : Int
  deriving DecidableEq, Repr

/-- The array read `a[i]`. -/
def aget (a : List Int) (i : Int) : Int := a.getD i.toNat 0

/-- The array write `a[i] = v`. -/
def aset (a : List Int) (i : Int) (v : Int) : List Int := a.set i.toNat v

/-- The values of `lpc` in `for (lpc = lo; lpc < hi; lpc++)`. -/
def for_range (lo hi : Int) : List Int :=
  (List.range (hi - lo).toNat).map (fun (i : Nat) => lo + (i : Int))

/-- Lines 119-136 of the constructor: the colours of the fixed roles, written
into the array `rc`. -/
def view_colors.fixed_roles (c : curses_h) (rc : List Int) : List Int :=
  let rc := aset rc VCR_TEXT (Int.lor (c.COLOR_PAIR VC_WHITE) c.A_DIM)
  let rc := aset rc VCR_SEARCH (Int.lor (aget rc VCR_TEXT) c.A_REVERSE)
  let rc := aset rc VCR_OK (Int.lor (c.COLOR_PAIR VC_GREEN) c.A_BOLD)
  let rc := aset rc VCR_ERROR (Int.lor (c.COLOR_PAIR VC_RED) c.A_BOLD)
  let rc := aset rc VCR_WARNING (Int.lor (c.COLOR_PAIR VC_YELLOW) c.A_BOLD)
  let rc := aset rc VCR_ALT_ROW (Int.lor (c.COLOR_PAIR VC_WHITE) c.A_BOLD)
  let rc := aset rc VCR_STATUS (c.COLOR_PAIR VC_BLACK_ON_WHITE)
  let rc := aset rc VCR_WARN_STATUS (Int.lor (c.COLOR_PAIR VC_YELLOW_ON_WHITE) c.A_BOLD)
  let rc := aset rc VCR_ALERT_STATUS (c.COLOR_PAIR VC_RED_ON_WHITE)
  let rc := aset rc VCR_ACTIVE_STATUS (c.COLOR_PAIR VC_GREEN_ON_WHITE)
  aset rc VCR_ACTIVE_STATUS2 (Int.lor (c.COLOR_PAIR VC_GREEN_ON_WHITE) c.A_BOLD)

/-- Lines 138-141 of the constructor: the reverse colours of the fixed roles,
written into the array `rr`. -/
def view_colors.reverse_roles (c : curses_h) (rc rr : List Int) : List Int :=
  (for_range 0 VCR__MAX).foldl
    (fun rr lpc => aset rr lpc (Int.lor (aget rc lpc) c.A_REVERSE)) rr

/-- Lines 147-156 of the constructor: the loop that primes the highlight
roles in both arrays, given as the pair (`vc_role_colors`,
`vc_role_reverse_colors`). -/
def view_colors.highlight_roles (c : curses_h) (arrays : List Int × List Int) :
    List Int × List Int :=
  (for_range 1 (HL_COLOR_COUNT + 1)).foldl
    (fun (s : List Int × List Int) lpc =>
      let rc := aset s.1 (VCR__MAX + (lpc - 1) * 2) (c.COLOR_PAIR lpc)
      let rc := aset rc (VCR__MAX + (lpc - 1) * 2 + 1) (Int.lor (c.COLOR_PAIR lpc) c.A_BOLD)
      let rr := aset s.2 (VCR__MAX + (lpc - 1) * 2)
        (Int.lor (c.COLOR_PAIR (lpc + HL_COLOR_COUNT)) c.A_REVERSE)
      let rr := aset rr (VCR__MAX + (lpc - 1) * 2 + 1)
        (Int.lor (Int.lor (c.COLOR_PAIR lpc) c.A_BOLD) c.A_REVERSE)
      (rc, rr))
    arrays

/-- The constructor `view_colors::view_colors()`, lines 113-157. The object is
a function-local static, so its arrays are zero before the constructor runs. -/
def view_colors.ctor (c : curses_h) : view_colors :=
  let size := (VCR__MAX + HL_COLOR_COUNT * 2).toNat
  let rc := view_colors.fixed_roles c (List.replicate size 0)
  let rr := view_colors.reverse_roles c rc (List.replicate size 0)
  let arrays := view_colors.highlight_roles c (rc, rr)
  { vc_role_colors := arrays.1, vc_role_reverse_colors := arrays.2, vc_next_highlight := 0 }

/-- The method `view_colors::attrs_for_role`; `none` is a failed assertion. -/
def attrs_for_role (vc : view_colors) (role : Int) : Option Int :=
  if ¬ (role ≥ 0) then none
  else if ¬ (role < VCR__MAX + (HL_COLOR_COUNT * 2)) then none
  else some (aget vc.vc_role_colors role)

/-- The method `view_colors::reverse_attrs_for_role`; `none` is a failed
assertion. -/
def reverse_attrs_for_role (vc : view_colors) (role : Int) : Option Int :=
  if ¬ (role ≥ 0) then none
  else if ¬ (role < VCR__MAX + (HL_COLOR_COUNT * 2)) then none
  else some (aget vc.vc_role_reverse_colors role)

/-- The method `view_colors::next_highlight`, lines 187-195: the role returned
and the table after the call. The C++ `%` truncates, as `Int.tmod` does. -/
def next_highlight (vc : view_colors) : Int × view_colors :=
  let retval := VCR__MAX + vc.vc_next_highlight
  (retval,
    { vc with vc_next_highlight := Int.tmod (vc.vc_next_highlight + 1) (HL_COLOR_COUNT * 2) })

/-- The roles returned by `n` consecutive calls of `next_highlight`. -/
def next_highlights : Nat → view_colors → List Int
  | 0, _ => []
  | n + 1, vc => (next_highlight vc).1 :: next_highlights n (next_highlight vc).2

/-- The states of the style table: the one the constructor builds and those a
call of `next_highlight` leads to. -/
inductive reachable (c : curses_h) : view_colors → Prop
  | ctor : reachable c (view_colors.ctor c)
  | step {vc : view_colors} : reachable c vc → reachable c (next_highlight vc).2

/-! ## view_curses.cc : mvwattrline -/

/-- A call on the curses window, with the arguments the renderer passes. For
`mvwinnstr` and `mvwaddnstr` the buffer is left out: it holds what the
read-back returned. -/
inductive Op where
  | wmove (y x : Int)
  | wattron (attrs : Int)
  | waddnstr (str : List Char) (n : Int)
  | whline (ch : Char) (n : Int)
  | wattroff (attrs : Int)
  | mvwinnstr (y x n : Int)
  | mvwaddnstr (y x n : Int)
  deriving DecidableEq, Repr

/-- Lines 46-53, the base paint, with `attrs` the attributes of the base role
and `line` the expanded text. `&line.c_str()[lr.lr_start]` is the text from
offset `lr.lr_start` on (the start of a viewport is not negative). -/
def base_paint (y x : Int) (line : List Char) (lr : line_range) (attrs : Int) : List Op :=
  let line_width := lr.length
  [Op.wmove y x, Op.wattron attrs]
    ++ (if lr.lr_start < (line.length : Int) then
          [Op.waddnstr (line.drop lr.lr_start.toNat) line_width] else [])
    ++ (if lr.lr_end > (line.length : Int) then
          [Op.whline ' ' (lr.lr_end - (line.length : Int))] else [])
    ++ [Op.wattroff attrs]

/-- Lines 62-72: the start, and an end other than -1, move right by 8 columns
for every element of `tab_list` that `lower_bound` skips. -/
def remap_range (tab_list : List Nat) (attr_range : line_range) : line_range :=
  let attr_range := { attr_range with
    lr_start := attr_range.lr_start + 8 * (lower_bound tab_list attr_range.lr_start : Int) }
  if attr_range.lr_end ≠ -1 then
    { attr_range with
      lr_end := attr_range.lr_end + 8 * (lower_bound tab_list attr_range.lr_end : Int) }
  else attr_range

/-- Lines 74-81: the remapped range in columns relative to the viewport `lr`,
clamped to `[0, line_width]`. -/
def clip_range (lr : line_range) (line_width : Int) (attr_range : line_range) : line_range :=
  let attr_range := { attr_range with lr_start := max 0 (attr_range.lr_start - lr.lr_start) }
  if attr_range.lr_end = -1 then
    { attr_range with lr_end := line_width }
  else
    { attr_range with lr_end := min line_width (attr_range.lr_end - lr.lr_start) }

/-- Lines 88-93: the bitwise or of the `sa_int` of the entries named "style". -/
def style_attrs (am : attrs_map_t) : Int :=
  am.foldl (fun attrs e => if e.1 = "style" then Int.lor attrs e.2 else attrs) 0

/-- Lines 83-100: the paint test on the clipped range and the four calls of
the overlay. -/
def paint_range (y x : Int) (attr_range : line_range) (am : attrs_map_t) : List Op :=
  if attr_range.lr_end > 0 then
    let awidth := attr_range.length
    let attrs := style_attrs am
    [Op.mvwinnstr y (x + attr_range.lr_start) awidth,
     Op.wattron attrs,
     Op.mvwaddnstr y (x + attr_range.lr_start) awidth,
     Op.wattroff attrs]
  else []

/-- The body of the loop of lines 55-103 for one entry of the line's
attributes; `none` is a failed assertion. -/
def overlay (tab_list : List Nat) (y x : Int) (lr : line_range) (line_width : Int)
    (entry : line_range × attrs_map_t) : Option (List Op) :=
  let attr_range := entry.1
  if ¬ (attr_range.lr_start ≥ 0) then none
  else if ¬ (attr_range.lr_end ≥ -1) then none
  else
    some (paint_range y x (clip_range lr line_width (remap_range tab_list attr_range)) entry.2)

/-- The loop of lines 55-103 over the entries in iteration order; the first
failed assertion aborts. -/
def overlays (tab_list : List Nat) (y x : Int) (lr : line_range) (line_width : Int) :
    string_attrs_t → Option (List Op)
  | [] => some []
  | entry :: rest =>
    match overlay tab_list y x lr line_width entry with
    | none => none
    | some ops =>
      match overlays tab_list y x lr line_width rest with
      | none => none
      | some more => some (ops ++ more)

/-- The method `view_curses::mvwattrline`, with `vc` the style table that
`view_colors::singleton()` returns: the line after the call (its text is
expanded in place) and the calls made on the window, or `none` for a failed
assertion. -/
def mvwattrline (vc : view_colors) (y x : Int) (al : attr_line_t) (lr : line_range)
    (base_role : Int) : Option (attr_line_t × List Op) :=
  if ¬ (lr.lr_end ≠ -1) then none
  else
    let line_width := lr.length
    let expanded := expansion al.al_string
    let line := expanded.1
    let tab_list := expanded.2
    match attrs_for_role vc base_role with
    | none => none
    | some text_attrs =>
      match overlays tab_list y x lr line_width al.al_attrs with
      | none => none
      | some ops =>
        some ({ al with al_string := line }, base_paint y x line lr text_attrs ++ ops)

/-! ## Vocabulary of the specification -/

/-- The offsets at which `c` occurs in a text whose first character has offset
`i`, ascending. -/
def offsets_of (c : Char) : List Char → Nat → List Nat
  | [], _ => []
  | a :: rest, i =>
    if a = c then i :: offsets_of c rest (i + 1) else offsets_of c rest (i + 1)

/-- The column of each tab of a text once the tabs before it are 8 columns
wide, the first character being at column `col`. -/
def tab_columns : List Char → Nat → List Nat
  | [], _ => []
  | a :: rest, col =>
    if a = '\t' then col :: tab_columns rest (col + 8) else tab_columns rest (col + 1)

/-- Every tab of a text replaced by 8 spaces. -/
def tabs_to_spaces (line : List Char) : List Char :=
  line.flatMap (fun c => if c = '\t' then List.replicate 8 ' ' else [c])

/-- Every carriage return of a text replaced by one space. -/
def crs_to_spaces (line : List Char) : List Char :=
  line.map (fun c => if c = '\r' then ' ' else c)

/-- The number of characters of its text that a call writes: `waddnstr` writes
at most `n` characters of `str`, and all of `str` when `n` is negative. -/
def Op.text_cells : Op → Int
  | Op.waddnstr str n => if n < 0 then (str.length : Int) else min n (str.length : Int)
  | _ => 0

/-- The number of blank cells that a call draws: `whline` draws `n` of them. -/
def Op.blank_cells : Op → Int
  | Op.whline _ n => max n 0
  | _ => 0

/-- The range `r` of a line with the text `line` as `mvwattrline` remaps and
clips it for the viewport `lr` (lines 62-81). -/
def clipped_range (line : List Char) (lr r : line_range) : line_range :=
  clip_range lr lr.length (remap_range (expansion line).2 r)

/-- The spans of surface columns that the re-write calls of an overlay paint,
each as (first column, column after the last). With a count `n >= 0` the call
writes at most `n` cells from column `x`. With a negative count curses takes
no limit from the count and writes the whole buffer, which the read-back with
the same count filled with the rest of the row: the span then runs on from `x`
and has no end of its own, `none`. -/
def painted_span (ops : List Op) : List (Int × Option Int) :=
  ops.filterMap (fun op =>
    match op with
    | Op.mvwaddnstr _ x n => some (x, if n < 0 then none else some (x + n))
    | _ => none)

/-! ## view_curses.cc : view_colors::init -/

/-- The colour constants of the curses header that `view_colors::init` names. -/
inductive curses_color where
  | COLOR_BLACK
  | COLOR_RED
  | COLOR_GREEN
  | COLOR_YELLOW
  | COLOR_BLUE
  | COLOR_MAGENTA
  | COLOR_CYAN
  | COLOR_WHITE
  deriving DecidableEq, Repr

/-- A call that `view_colors::init` makes on the terminal driver. -/
inductive InitOp where
  | start_color
  | init_pair (pair : Int) (fg bg : curses_color)
  deriving DecidableEq, Repr

/-- The method `view_colors::init`, lines 159-185, as the calls it makes, given
what `has_colors()` returns. -/
def view_colors.init (has_colors : Bool) : List InitOp :=
  if has_colors then
    [InitOp.start_color,
     InitOp.init_pair VC_BLUE curses_color.COLOR_BLUE curses_color.COLOR_BLACK,
     InitOp.init_pair VC_CYAN curses_color.COLOR_CYAN curses_color.COLOR_BLACK,
     InitOp.init_pair VC_GREEN curses_color.COLOR_GREEN curses_color.COLOR_BLACK,
     InitOp.init_pair VC_MAGENTA curses_color.COLOR_MAGENTA curses_color.COLOR_BLACK,
     InitOp.init_pair VC_BLUE_ON_WHITE curses_color.COLOR_BLUE curses_color.COLOR_WHITE,
     InitOp.init_pair VC_CYAN_ON_BLACK curses_color.COLOR_CYAN curses_color.COLOR_BLACK,
     InitOp.init_pair VC_GREEN_ON_WHITE curses_color.COLOR_GREEN curses_color.COLOR_WHITE,
     InitOp.init_pair VC_MAGENTA_ON_WHITE curses_color.COLOR_MAGENTA curses_color.COLOR_WHITE,
     InitOp.init_pair VC_RED curses_color.COLOR_RED curses_color.COLOR_BLACK,
     InitOp.init_pair VC_YELLOW curses_color.COLOR_YELLOW curses_color.COLOR_BLACK,
     InitOp.init_pair VC_WHITE curses_color.COLOR_WHITE curses_color.COLOR_BLACK,
     InitOp.init_pair VC_BLACK_ON_WHITE curses_color.COLOR_BLACK curses_color.COLOR_WHITE,
     InitOp.init_pair VC_RED_ON_WHITE curses_color.COLOR_RED curses_color.COLOR_WHITE,
     InitOp.init_pair VC_YELLOW_ON_WHITE curses_color.COLOR_YELLOW curses_color.COLOR_WHITE,
     InitOp.init_pair VC_WHITE_ON_GREEN curses_color.COLOR_WHITE curses_color.COLOR_GREEN]
  else []

/-- The pair indices that a sequence of driver calls registers. -/
def registered_pairs (ops : List InitOp) : List Int :=
  ops.filterMap (fun op =>
    match op with
    | InitOp.init_pair pair _ _ => some pair
    | InitOp.start_color => none)

/-- The macro `PAIR_NUMBER` of ncurses, the inverse of its `COLOR_PAIR`: the
colour pair index held in bits 8-15 of an attribute encoding. -/
def PAIR_NUMBER (attrs : Int) : Int := Int.land attrs 65280 / 256

/-! ## view_curses.hh : line_range::operator< -/

/-- The operator `line_range::operator<`, lines 59-65. -/
def line_range.lt (a rhs : line_range) : Bool :=
  if a.lr_start < rhs.lr_start then true
  else if a.lr_start > rhs.lr_start then false
  else if a.lr_end < rhs.lr_end then true
  else false

/-! ## Repeated calls, the active attribute mask, the scratch buffer -/

/-- The style table after `n` further calls of `next_highlight`. -/
def after_highlights : Nat → view_colors → view_colors
  | 0, vc => vc
  | n + 1, vc => after_highlights n (next_highlight vc).2

/-- The active attribute mask of the window after one call: `wattron` ors its
mask in, `wattroff` removes the bits of its mask, the other calls leave the
active mask alone. -/
def attr_step (mask : Int) : Op → Int
  | Op.wattron attrs => Int.lor mask attrs
  | Op.wattroff attrs => Int.ldiff mask attrs
  | _ => mask

/-- The active attribute mask of the window after a sequence of calls. -/
def attr_state (mask : Int) (ops : List Op) : Int :=
  ops.foldl attr_step mask

/-- Whether every `wattron` of a sequence of calls is followed by a `wattroff`
of the same mask before the next `wattron` and before the sequence ends;
`cur` is the mask switched on and not yet off. -/
def bracketed : Option Int → List Op → Bool
  | cur, [] => cur.isNone
  | cur, op :: rest =>
    match op, cur with
    | Op.wattron attrs, none => bracketed (some attrs) rest
    | Op.wattron _, some _ => false
    | Op.wattroff attrs, some active => decide (active = attrs) && bracketed none rest
    | Op.wattroff _, none => false
    | _, cur => bracketed cur rest

/-- The size in bytes of the scratch buffer, `alloca(line_width + 1)` on line
30. -/
def buffer_size (lr : line_range) : Int := lr.length + 1

/-- The number of bytes that each read-back call of a sequence of window
calls may store in the scratch buffer. With a count `n >= 0` the call stores at
most `n` characters and the byte that ends the string, `n + 1` bytes. With a
negative count curses takes no limit from the count and stores the rest of the
row: the bytes stored have no bound in the arguments of the call, `none`. -/
def read_back_bytes (ops : List Op) : List (Option Int) :=
  ops.filterMap (fun op =>
    match op with
    | Op.mvwinnstr _ _ n => some (if n < 0 then none else some (n + 1))
    | _ => none)

/-- The entries of an attribute map whose category name is "style". -/
def style_entries (am : attrs_map_t) : attrs_map_t :=
  am.filter (fun e => decide (e.1 = "style"))

/-! ## The expansion pass -/

theorem find_eq_none {l : List Char} {c : Char} : find l c = none ↔ c ∉ l := by
  induction l with
  | nil => simp [find]
  | cons a rest ih =>
    by_cases h : a = c
    · simp [find, h]
    · have h2 : ¬ c = a := fun e => h e.symm
      simp [find, h, h2, ih]

theorem find_eq_some {l : List Char} {c : Char} {k : Nat} (h : find l c = some k) :
    ∃ pre post, l = pre ++ c :: post ∧ c ∉ pre ∧ pre.length = k := by
  induction l generalizing k with
  | nil => simp [find] at h
  | cons a rest ih =>
    by_cases hac : a = c
    · simp [find, hac] at h
      exact ⟨[], rest, by simp [hac], by simp, by simpa using h⟩
    · simp only [find, hac, if_false, Option.map_eq_some'] at h
      obtain ⟨j, hj, rfl⟩ := h
      obtain ⟨pre, post, rfl, hpre, hlen⟩ := ih hj
      refine ⟨a :: pre, post, by simp, ?_, by simp [hlen]⟩
      simp only [List.mem_cons, not_or]
      exact ⟨fun e => hac e.symm, hpre⟩

theorem replace_at_split (pre post fill : List Char) (c : Char) :
    replace (pre ++ c :: post) pre.length 1 fill = pre ++ fill ++ post := by
  simp [replace]

theorem tabs_to_spaces_append (a b : List Char) :
    tabs_to_spaces (a ++ b) = tabs_to_spaces a ++ tabs_to_spaces b := by
  simp [tabs_to_spaces]

theorem tabs_to_spaces_cons (a : Char) (rest : List Char) :
    tabs_to_spaces (a :: rest)
      = (if a = '\t' then List.replicate 8 ' ' else [a]) ++ tabs_to_spaces rest := rfl

theorem tabs_to_spaces_of_not_mem {l : List Char} (h : '\t' ∉ l) : tabs_to_spaces l = l := by
  induction l with
  | nil => rfl
  | cons a rest ih =>
    simp only [List.mem_cons, not_or] at h
    have ha : ¬ a = '\t' := fun e => h.1 e.symm
    rw [tabs_to_spaces_cons, ih h.2, if_neg ha]
    rfl

theorem tab_columns_of_not_mem {pre : List Char} (h : '\t' ∉ pre) (rest : List Char) (col : Nat) :
    tab_columns (pre ++ rest) col = tab_columns rest (col + pre.length) := by
  induction pre generalizing col with
  | nil => simp
  | cons a l ih =>
    simp only [List.mem_cons, not_or] at h
    have ha : ¬ a = '\t' := fun e => h.1 e.symm
    have e : col + 1 + l.length = col + (l.length + 1) := by omega
    show tab_columns (a :: (l ++ rest)) col = tab_columns rest (col + (l.length + 1))
    rw [tab_columns, if_neg ha, ih h.2, e]

theorem not_mem_replicate_space_tab (n : Nat) : '\t' ∉ List.replicate n ' ' := by
  intro h
  have := List.eq_of_mem_replicate h
  exact absurd this (by decide)

/-- The tab loop, run with at least as much fuel as the line has tabs, leaves
through its exit test with every tab replaced by 8 spaces, having recorded the
column of each tab in the partly expanded line. -/
theorem expand_tabs_fuel (fuel : Nat) (line : List Char) (tab_list : List Nat)
    (h : line.count '\t' ≤ fuel) :
    expand_tabs fuel line tab_list = (tabs_to_spaces line, tab_list ++ tab_columns line 0) := by
  induction fuel generalizing line tab_list with
  | zero =>
    have h0 : '\t' ∉ line := List.count_eq_zero.mp (Nat.le_zero.mp h)
    have := tab_columns_of_not_mem h0 [] 0
    simp only [List.append_nil] at this
    simp [expand_tabs, tabs_to_spaces_of_not_mem h0, this, tab_columns]
  | succ n ih =>
    cases hf : find line '\t' with
    | none =>
      have h0 : '\t' ∉ line := find_eq_none.mp hf
      have := tab_columns_of_not_mem h0 [] 0
      simp only [List.append_nil] at this
      simp [expand_tabs, hf, tabs_to_spaces_of_not_mem h0, this, tab_columns]
    | some k =>
      obtain ⟨pre, post, rfl, hpre, rfl⟩ := find_eq_some hf
      have hcnt : (pre ++ List.replicate 8 ' ' ++ post).count '\t' ≤ n := by
        simp only [List.count_append, List.count_cons_self,
          List.count_eq_zero.mpr hpre,
          List.count_eq_zero.mpr (not_mem_replicate_space_tab 8)] at h ⊢
        omega
      simp only [expand_tabs, hf, replace_at_split, ih _ _ hcnt]
      have e1 : tabs_to_spaces (pre ++ List.replicate 8 ' ' ++ post)
          = tabs_to_spaces (pre ++ '\t' :: post) := by
        have : tabs_to_spaces ('\t' :: post) = List.replicate 8 ' ' ++ tabs_to_spaces post := by
          rw [tabs_to_spaces_cons, if_pos rfl]
        rw [tabs_to_spaces_append, tabs_to_spaces_append, tabs_to_spaces_append, this,
          tabs_to_spaces_of_not_mem (not_mem_replicate_space_tab 8), List.append_assoc]
      have e2 : tab_columns (pre ++ List.replicate 8 ' ' ++ post) 0
          = tab_columns post (pre.length + 8) := by
        rw [List.append_assoc, tab_columns_of_not_mem hpre,
          tab_columns_of_not_mem (not_mem_replicate_space_tab 8)]
        simp
      have e3 : tab_columns (pre ++ '\t' :: post) 0
          = pre.length :: tab_columns post (pre.length + 8) := by
        rw [tab_columns_of_not_mem hpre]
        simp [tab_columns]
      rw [e1, e2, e3]
      simp

theorem crs_to_spaces_append (a b : List Char) :
    crs_to_spaces (a ++ b) = crs_to_spaces a ++ crs_to_spaces b := by
  simp [crs_to_spaces]

theorem crs_to_spaces_of_not_mem {l : List Char} (h : '\r' ∉ l) : crs_to_spaces l = l := by
  induction l with
  | nil => rfl
  | cons a rest ih =>
    simp only [List.mem_cons, not_or] at h
    have ha : ¬ a = '\r' := fun e => h.1 e.symm
    have := ih h.2
    simp only [crs_to_spaces, List.map_cons, if_neg ha] at this ⊢
    rw [this]

/-- The carriage-return loop, run with at least as much fuel as the line has
carriage returns, leaves through its exit test with every carriage return
replaced by one space. -/
theorem expand_crs_fuel (fuel : Nat) (line : List Char) (h : line.count '\r' ≤ fuel) :
    expand_crs fuel line = crs_to_spaces line := by
  induction fuel generalizing line with
  | zero =>
    have h0 : '\r' ∉ line := List.count_eq_zero.mp (Nat.le_zero.mp h)
    simp [expand_crs, crs_to_spaces_of_not_mem h0]
  | succ n ih =>
    cases hf : find line '\r' with
    | none =>
      have h0 : '\r' ∉ line := find_eq_none.mp hf
      simp [expand_crs, hf, crs_to_spaces_of_not_mem h0]
    | some k =>
      obtain ⟨pre, post, rfl, hpre, rfl⟩ := find_eq_some hf
      have hsp : '\r' ∉ [' '] := by decide
      have hcnt : (pre ++ [' '] ++ post).count '\r' ≤ n := by
        simp only [List.count_append, List.count_cons_self,
          List.count_eq_zero.mpr hpre, List.count_eq_zero.mpr hsp] at h ⊢
        omega
      simp only [expand_crs, hf, replace_at_split, ih _ hcnt]
      simp [crs_to_spaces]

theorem count_le_length (c : Char) (l : List Char) : l.count c ≤ l.length :=
  List.count_le_length c l

/-- The expansion pass in closed form: the text with its tabs and carriage
returns replaced, and the column of each tab in the partly expanded text. -/
theorem expansion_eq (line : List Char) :
    expansion line = (crs_to_spaces (tabs_to_spaces line), tab_columns line 0) := by
  unfold expansion
  rw [expand_tabs_fuel _ _ _ (count_le_length _ _)]
  simp only [List.nil_append]
  rw [expand_crs_fuel _ _ (count_le_length _ _)]

theorem crs_tabs_flatMap (line : List Char) :
    crs_to_spaces (tabs_to_spaces line)
      = line.flatMap (fun c =>
          if c = '\t' then List.replicate 8 ' ' else if c = '\r' then [' '] else [c]) := by
  induction line with
  | nil => rfl
  | cons a rest ih =>
    rw [tabs_to_spaces_cons, crs_to_spaces_append, ih, List.flatMap_cons]
    congr 1
    by_cases h1 : a = '\t'
    · subst h1; decide
    · by_cases h2 : a = '\r'
      · subst h2; decide
      · simp [h1, h2, crs_to_spaces]

theorem tabs_to_spaces_length (line : List Char) :
    (tabs_to_spaces line).length = line.length + 7 * line.count '\t' := by
  induction line with
  | nil => rfl
  | cons a rest ih =>
    rw [tabs_to_spaces_cons, List.length_append, ih]
    by_cases h1 : a = '\t'
    · subst h1
      simp only [if_true, List.length_replicate, List.length_cons, List.count_cons_self]
      omega
    · have h2 : ¬ '\t' = a := fun e => h1 e.symm
      simp only [if_neg h1, List.length_cons, List.length_nil, List.count_cons, beq_iff_eq,
        if_neg h1]
      omega

theorem tab_not_mem_tabs_to_spaces (line : List Char) : '\t' ∉ tabs_to_spaces line := by
  induction line with
  | nil => simp [tabs_to_spaces]
  | cons a rest ih =>
    rw [tabs_to_spaces_cons, List.mem_append, not_or]
    refine ⟨?_, ih⟩
    by_cases h1 : a = '\t'
    · rw [if_pos h1]; exact not_mem_replicate_space_tab 8
    · rw [if_neg h1]; simpa using fun e => h1 e.symm

theorem not_mem_crs_to_spaces (line : List Char) : '\r' ∉ crs_to_spaces line := by
  intro h
  simp only [crs_to_spaces, List.mem_map] at h
  obtain ⟨a, _, ha⟩ := h
  by_cases h1 : a = '\r'
  · rw [if_pos h1] at ha; exact absurd ha (by decide)
  · rw [if_neg h1] at ha; exact h1 ha

theorem tab_not_mem_crs_to_spaces {line : List Char} (h : '\t' ∉ line) :
    '\t' ∉ crs_to_spaces line := by
  intro hm
  simp only [crs_to_spaces, List.mem_map] at hm
  obtain ⟨a, hal, ha⟩ := hm
  by_cases h1 : a = '\r'
  · rw [if_pos h1] at ha; exact absurd ha (by decide)
  · rw [if_neg h1] at ha; exact h (ha ▸ hal)

/-- C4: the expansion pass terminates (the result does not depend on the fuel
once it covers the length of the line, and both exit tests hold of the text it
returns) and leaves the text of the line with every tab replaced by exactly 8
spaces and every carriage return by exactly one space, all other characters
kept in order; the result has no tab and no carriage return, its length is the
original length plus 7 times the number of tabs, and it is the original text
when that has no tab and no carriage return. A call of `mvwattrline` that
returns leaves this text in the line. -/
theorem expansion_text (line : List Char) :
    (expansion line).1
        = line.flatMap (fun c =>
            if c = '\t' then List.replicate 8 ' ' else if c = '\r' then [' '] else [c])
      ∧ (∀ f1 f2 : Nat, line.length ≤ f1 → (expand_tabs f1 line []).1.length ≤ f2 →
          expand_crs f2 (expand_tabs f1 line []).1 = (expansion line).1)
      ∧ find (expansion line).1 '\t' = none
      ∧ find (expansion line).1 '\r' = none
      ∧ (expansion line).1.length = line.length + 7 * line.count '\t'
      ∧ (find line '\t' = none → find line '\r' = none → (expansion line).1 = line)
      ∧ (∀ (vc : view_colors) (y x : Int) (sa : string_attrs_t) (lr : line_range)
          (base_role : Int) (al : attr_line_t) (ops : List Op),
          mvwattrline vc y x ⟨line, sa⟩ lr base_role = some (al, ops) →
            al.al_string = (expansion line).1) := by
  have hcall : ∀ (vc : view_colors) (y x : Int) (sa : string_attrs_t) (lr : line_range)
      (base_role : Int) (al : attr_line_t) (ops : List Op),
      mvwattrline vc y x ⟨line, sa⟩ lr base_role = some (al, ops) →
        al.al_string = (expansion line).1 := by
    intro vc y x sa lr base_role al ops h
    simp only [mvwattrline] at h
    by_cases h1 : lr.lr_end = -1
    · simp [h1] at h
    · cases h2 : attrs_for_role vc base_role with
      | none => simp [h1, h2] at h
      | some text_attrs =>
        cases h3 : overlays (expansion line).2 y x lr lr.length sa with
        | none => simp [h1, h2, h3] at h
        | some more =>
          simp only [h1, h2, h3, ne_eq, not_false_eq_true, not_true_eq_false, if_false,
            Option.some.injEq, Prod.mk.injEq] at h
          rw [← h.1]
  refine ⟨?_, ?_, ?_, ?_, ?_, ?_, hcall⟩
  all_goals rw [expansion_eq]
  · exact crs_tabs_flatMap line
  · intro f1 f2 h1 h2
    rw [expand_tabs_fuel f1 line [] (le_trans (count_le_length _ _) h1)] at h2 ⊢
    exact expand_crs_fuel f2 _ (le_trans (count_le_length _ _) h2)
  · exact find_eq_none.mpr (tab_not_mem_crs_to_spaces (tab_not_mem_tabs_to_spaces line))
  · exact find_eq_none.mpr (not_mem_crs_to_spaces _)
  · show (crs_to_spaces (tabs_to_spaces line)).length = _
    rw [crs_to_spaces, List.length_map, tabs_to_spaces_length]
  · intro h1 h2
    show crs_to_spaces (tabs_to_spaces line) = line
    rw [tabs_to_spaces_of_not_mem (find_eq_none.mp h1),
      crs_to_spaces_of_not_mem (find_eq_none.mp h2)]

/-! ## The overlay pass -/

theorem lower_bound_nil (val : Int) : lower_bound [] val = 0 := rfl

theorem tab_list_of_no_tab {line : List Char} (h : '\t' ∉ line) : (expansion line).2 = [] := by
  rw [expansion_eq]
  have := tab_columns_of_not_mem h [] 0
  simpa [tab_columns] using this

theorem overlay_eq_none_iff (tab_list : List Nat) (y x : Int) (lr : line_range)
    (line_width : Int) (entry : line_range × attrs_map_t) :
    overlay tab_list y x lr line_width entry = none
      ↔ entry.1.lr_start < 0 ∨ entry.1.lr_end < -1 := by
  unfold overlay
  by_cases h1 : entry.1.lr_start ≥ 0
  · by_cases h2 : entry.1.lr_end ≥ -1
    · simp only [h1, h2, not_true_eq_false, if_false]
      constructor
      · intro h; cases h
      · rintro (h | h) <;> omega
    · simp only [h1, h2, not_true_eq_false, not_false_eq_true, if_false, if_true, true_iff]
      right; omega
  · simp only [h1, not_false_eq_true, if_true, true_iff]
    left; omega

theorem overlays_eq_none_iff (tab_list : List Nat) (y x : Int) (lr : line_range)
    (line_width : Int) (sa : string_attrs_t) :
    overlays tab_list y x lr line_width sa = none
      ↔ ∃ entry ∈ sa, entry.1.lr_start < 0 ∨ entry.1.lr_end < -1 := by
  induction sa with
  | nil => simp [overlays]
  | cons entry rest ih =>
    cases h1 : overlay tab_list y x lr line_width entry with
    | none =>
      have := (overlay_eq_none_iff tab_list y x lr line_width entry).mp h1
      simp only [overlays, h1, List.mem_cons, true_iff]
      exact ⟨entry, Or.inl rfl, this⟩
    | some ops =>
      have hne : ¬ (entry.1.lr_start < 0 ∨ entry.1.lr_end < -1) := by
        rw [← overlay_eq_none_iff tab_list y x lr line_width entry, h1]
        simp
      cases h2 : overlays tab_list y x lr line_width rest with
      | none =>
        obtain ⟨e, he, hbad⟩ := ih.mp h2
        simp only [overlays, h1, h2, true_iff]
        exact ⟨e, List.mem_cons_of_mem _ he, hbad⟩
      | some more =>
        simp only [overlays, h1, h2]
        refine ⟨fun h => Option.noConfusion h, ?_⟩
        rintro ⟨e, he, hbad⟩
        rcases List.mem_cons.mp he with rfl | he
        · exact absurd hbad hne
        · have := ih.mpr ⟨e, he, hbad⟩
          rw [h2] at this
          cases this

/-- C10: `mvwattrline` ends in a fatal assertion exactly when the end of the
viewport is the sentinel -1, or the base role is outside `[0, VCR__MAX + 8)`,
or some style range of the line has a start below 0 or an end below -1; on
every other input it completes, returning the expanded line and its calls. -/
theorem mvwattrline_assertion_iff (vc : view_colors) (y x : Int) (al : attr_line_t)
    (lr : line_range) (base_role : Int) :
    (mvwattrline vc y x al lr base_role = none
        ↔ (lr.lr_end = -1 ∨ ¬ (0 ≤ base_role ∧ base_role < VCR__MAX + 8)
            ∨ ∃ entry ∈ al.al_attrs, entry.1.lr_start < 0 ∨ entry.1.lr_end < -1))
      ∧ (mvwattrline vc y x al lr base_role ≠ none
        → ∃ ops, mvwattrline vc y x al lr base_role
            = some ({ al with al_string := (expansion al.al_string).1 }, ops)) := by
  have hov := overlays_eq_none_iff (expansion al.al_string).2 y x lr lr.length al.al_attrs
  unfold mvwattrline attrs_for_role
  by_cases h1 : lr.lr_end = -1
  · simp [h1]
  · by_cases h2 : base_role ≥ 0
    · by_cases h3 : base_role < VCR__MAX + (HL_COLOR_COUNT * 2)
      · have h3b : base_role < VCR__MAX + 8 := h3
        cases h4 : overlays (expansion al.al_string).2 y x lr lr.length al.al_attrs with
        | none =>
          have := hov.mp h4
          simp [h1, h2, h3, h3b, h4, this]
        | some ops =>
          have : ¬ ∃ entry ∈ al.al_attrs, entry.1.lr_start < 0 ∨ entry.1.lr_end < -1 := by
            rw [← hov, h4]; simp
          simp only [ne_eq] at this ⊢
          simp [h1, h2, h3, h3b, h4, this]
      · have h3b : ¬ base_role < VCR__MAX + 8 := h3
        simp [h1, h2, h3, h3b]
    · simp [h1, h2]

/-- C8: a valid style range with a finite end whose remapped end is at or
before the start column of the viewport is not painted: the loop body issues
no call for it. -/
theorem overlay_left_of_viewport (line : List Char) (y x : Int) (lr : line_range)
    (r : line_range) (am : attrs_map_t)
    (hstart : 0 ≤ r.lr_start) (hvalid : -1 ≤ r.lr_end) (hfinite : r.lr_end ≠ -1)
    (hleft : (remap_range (expansion line).2 r).lr_end ≤ lr.lr_start) :
    overlay (expansion line).2 y x lr lr.length (r, am) = some [] := by
  have h1 : r.lr_start ≥ 0 := hstart
  have h2 : r.lr_end ≥ -1 := hvalid
  have h3 : r.lr_end ≠ -1 := hfinite
  simp only [overlay, h1, h2, not_true_eq_false, if_false, Option.some.injEq]
  simp only [remap_range, h3, ne_eq, not_false_eq_true, if_true] at hleft ⊢
  have h4 : ¬ (r.lr_end + 8 * (lower_bound (expansion line).2 r.lr_end : Int) = -1) := by
    have : (0 : Int) ≤ (lower_bound (expansion line).2 r.lr_end : Int) := Int.ofNat_nonneg _
    omega
  simp only [clip_range, h4, if_false, paint_range]
  have h5 : ¬ (min lr.length
      (r.lr_end + 8 * (lower_bound (expansion line).2 r.lr_end : Int) - lr.lr_start) > 0) := by
    have := min_le_right lr.length
      (r.lr_end + 8 * (lower_bound (expansion line).2 r.lr_end : Int) - lr.lr_start)
    omega
  simp only [h5, if_false]

/-- Witness of C8: in the line "a\tb" the range [2,3) is remapped to the end
11, the start column of the viewport [11,20), and nothing is painted. -/
theorem overlay_left_of_viewport_witness :
    overlay (expansion "a\tb".toList).2 0 0 ⟨11, 20⟩ (line_range.length ⟨11, 20⟩)
      (⟨2, 3⟩, [("style", 2097152)]) = some [] :=
  overlay_left_of_viewport "a\tb".toList 0 0 ⟨11, 20⟩ ⟨2, 3⟩ [("style", 2097152)]
    (by decide) (by decide) (by decide) (by decide)

theorem paint_range_of_pos (y x : Int) (cr : line_range) (am : attrs_map_t)
    (h : cr.lr_end > 0) :
    paint_range y x cr am
      = [Op.mvwinnstr y (x + cr.lr_start) (cr.lr_end - cr.lr_start),
          Op.wattron (style_attrs am),
          Op.mvwaddnstr y (x + cr.lr_start) (cr.lr_end - cr.lr_start),
          Op.wattroff (style_attrs am)] := by
  have hne : ¬ cr.lr_end = -1 := by omega
  simp only [paint_range, h, if_true, line_range.length, hne, if_false]

theorem overlay_of_valid (tab_list : List Nat) (y x : Int) (lr : line_range) (line_width : Int)
    (r : line_range) (am : attrs_map_t) (hstart : 0 ≤ r.lr_start) (hend : -1 ≤ r.lr_end) :
    overlay tab_list y x lr line_width (r, am)
      = some (paint_range y x (clip_range lr line_width (remap_range tab_list r)) am) := by
  have h1 : r.lr_start ≥ 0 := hstart
  have h2 : r.lr_end ≥ -1 := hend
  simp only [overlay, h1, h2, not_true_eq_false, if_false]

/-- C7: in a line without tabs, a valid style range [s,e) (its start is not
negative) that is not empty and lies inside the viewport [vs,ve) is painted
over exactly e - s cells, from surface column x + (s - vs) up to, and not
including, x + (e - vs). -/
theorem overlay_inside_viewport (line : List Char) (y x vs ve s e : Int) (am : attrs_map_t)
    (hno_tab : find line '\t' = none) (hvalid : 0 ≤ s)
    (h1 : vs ≤ s) (h2 : s < e) (h3 : e ≤ ve) :
    overlay (expansion line).2 y x ⟨vs, ve⟩ (line_range.length ⟨vs, ve⟩) (⟨s, e⟩, am)
        = some
          [Op.mvwinnstr y (x + (s - vs)) (e - s),
            Op.wattron (style_attrs am),
            Op.mvwaddnstr y (x + (s - vs)) (e - s),
            Op.wattroff (style_attrs am)]
      ∧ painted_span
          [Op.mvwinnstr y (x + (s - vs)) (e - s),
            Op.wattron (style_attrs am),
            Op.mvwaddnstr y (x + (s - vs)) (e - s),
            Op.wattroff (style_attrs am)]
        = [(x + (s - vs), some (x + (e - vs)))] := by
  have htabs : (expansion line).2 = [] := tab_list_of_no_tab (find_eq_none.mp hno_tab)
  have hs : s ≥ 0 := hvalid
  have he : e ≥ -1 := by omega
  have he1 : ¬ e = -1 := by omega
  have hve : ¬ ve = -1 := by omega
  constructor
  · rw [htabs]
    simp only [overlay, hs, he, not_true_eq_false, if_false, remap_range, lower_bound_nil,
      ne_eq, he1, not_false_eq_true, if_true, Nat.cast_zero, mul_zero, add_zero,
      clip_range, line_range.length, hve]
    have hmax : max 0 (s - vs) = s - vs := max_eq_right (by omega)
    have hmin : min (ve - vs) (e - vs) = e - vs := min_eq_right (by omega)
    have hpos : e - vs > 0 := by omega
    have hne : ¬ e - vs = -1 := by omega
    simp only [hmax, hmin, paint_range, hpos, if_true, line_range.length, hne, if_false]
    have : e - vs - (s - vs) = e - s := by omega
    rw [this]
  · have hcount : ¬ (e - s < 0) := by omega
    simp only [painted_span, List.filterMap_cons, List.filterMap_nil, hcount, if_false,
      List.cons.injEq, Prod.mk.injEq, Option.some.injEq, true_and, and_true]
    omega

/-- Witness of C7: the range [3,5) of "hello world" in the viewport [2,9),
drawn at column 10, is painted over 2 cells from column 11. -/
theorem overlay_inside_viewport_witness :
    overlay (expansion "hello world".toList).2 0 10 ⟨2, 9⟩ (line_range.length ⟨2, 9⟩)
        (⟨3, 5⟩, [("style", 2097152)])
      = some [Op.mvwinnstr 0 (10 + (3 - 2)) (5 - 3), Op.wattron (style_attrs [("style", 2097152)]),
          Op.mvwaddnstr 0 (10 + (3 - 2)) (5 - 3), Op.wattroff (style_attrs [("style", 2097152)])] :=
  (overlay_inside_viewport "hello world".toList 0 10 2 9 3 5 [("style", 2097152)]
    (by decide) (by decide) (by decide) (by decide) (by decide)).1

/-! ## The style table -/

theorem ctor_next_highlight (c : curses_h) : (view_colors.ctor c).vc_next_highlight = 0 := rfl

theorem role_array_size : (VCR__MAX + HL_COLOR_COUNT * 2).toNat = 19 := by decide

theorem fixed_roles_eq (c : curses_h) :
    view_colors.fixed_roles c (List.replicate 19 0)
      = [Int.lor (c.COLOR_PAIR VC_WHITE) c.A_DIM,
          Int.lor (Int.lor (c.COLOR_PAIR VC_WHITE) c.A_DIM) c.A_REVERSE,
          Int.lor (c.COLOR_PAIR VC_GREEN) c.A_BOLD,
          Int.lor (c.COLOR_PAIR VC_RED) c.A_BOLD,
          Int.lor (c.COLOR_PAIR VC_YELLOW) c.A_BOLD,
          Int.lor (c.COLOR_PAIR VC_WHITE) c.A_BOLD,
          c.COLOR_PAIR VC_BLACK_ON_WHITE,
          Int.lor (c.COLOR_PAIR VC_YELLOW_ON_WHITE) c.A_BOLD,
          c.COLOR_PAIR VC_RED_ON_WHITE,
          c.COLOR_PAIR VC_GREEN_ON_WHITE,
          Int.lor (c.COLOR_PAIR VC_GREEN_ON_WHITE) c.A_BOLD,
          0, 0, 0, 0, 0, 0, 0, 0] := rfl

theorem reverse_roles_eq (c : curses_h) (a0 a1 a2 a3 a4 a5 a6 a7 a8 a9 a10 : Int)
    (rest : List Int) :
    view_colors.reverse_roles c (a0 :: a1 :: a2 :: a3 :: a4 :: a5 :: a6 :: a7 :: a8 :: a9
        :: a10 :: rest) (List.replicate 19 0)
      = [Int.lor a0 c.A_REVERSE, Int.lor a1 c.A_REVERSE, Int.lor a2 c.A_REVERSE,
          Int.lor a3 c.A_REVERSE, Int.lor a4 c.A_REVERSE, Int.lor a5 c.A_REVERSE,
          Int.lor a6 c.A_REVERSE, Int.lor a7 c.A_REVERSE, Int.lor a8 c.A_REVERSE,
          Int.lor a9 c.A_REVERSE, Int.lor a10 c.A_REVERSE,
          0, 0, 0, 0, 0, 0, 0, 0] := rfl

theorem highlight_roles_eq (c : curses_h)
    (a0 a1 a2 a3 a4 a5 a6 a7 a8 a9 a10 b0 b1 b2 b3 b4 b5 b6 b7 b8 b9 b10 : Int) :
    view_colors.highlight_roles c
        ([a0, a1, a2, a3, a4, a5, a6, a7, a8, a9, a10, 0, 0, 0, 0, 0, 0, 0, 0],
          [b0, b1, b2, b3, b4, b5, b6, b7, b8, b9, b10, 0, 0, 0, 0, 0, 0, 0, 0])
      = ([a0, a1, a2, a3, a4, a5, a6, a7, a8, a9, a10,
            c.COLOR_PAIR 1, Int.lor (c.COLOR_PAIR 1) c.A_BOLD,
            c.COLOR_PAIR 2, Int.lor (c.COLOR_PAIR 2) c.A_BOLD,
            c.COLOR_PAIR 3, Int.lor (c.COLOR_PAIR 3) c.A_BOLD,
            c.COLOR_PAIR 4, Int.lor (c.COLOR_PAIR 4) c.A_BOLD],
          [b0, b1, b2, b3, b4, b5, b6, b7, b8, b9, b10,
            Int.lor (c.COLOR_PAIR (1 + HL_COLOR_COUNT)) c.A_REVERSE,
            Int.lor (Int.lor (c.COLOR_PAIR 1) c.A_BOLD) c.A_REVERSE,
            Int.lor (c.COLOR_PAIR (2 + HL_COLOR_COUNT)) c.A_REVERSE,
            Int.lor (Int.lor (c.COLOR_PAIR 2) c.A_BOLD) c.A_REVERSE,
            Int.lor (c.COLOR_PAIR (3 + HL_COLOR_COUNT)) c.A_REVERSE,
            Int.lor (Int.lor (c.COLOR_PAIR 3) c.A_BOLD) c.A_REVERSE,
            Int.lor (c.COLOR_PAIR (4 + HL_COLOR_COUNT)) c.A_REVERSE,
            Int.lor (Int.lor (c.COLOR_PAIR 4) c.A_BOLD) c.A_REVERSE]) := rfl

/-- The two arrays of the freshly constructed style table, entry by entry. -/
theorem ctor_arrays (c : curses_h) :
    (view_colors.ctor c).vc_role_colors
        = [Int.lor (c.COLOR_PAIR VC_WHITE) c.A_DIM,
            Int.lor (Int.lor (c.COLOR_PAIR VC_WHITE) c.A_DIM) c.A_REVERSE,
            Int.lor (c.COLOR_PAIR VC_GREEN) c.A_BOLD,
            Int.lor (c.COLOR_PAIR VC_RED) c.A_BOLD,
            Int.lor (c.COLOR_PAIR VC_YELLOW) c.A_BOLD,
            Int.lor (c.COLOR_PAIR VC_WHITE) c.A_BOLD,
            c.COLOR_PAIR VC_BLACK_ON_WHITE,
            Int.lor (c.COLOR_PAIR VC_YELLOW_ON_WHITE) c.A_BOLD,
            c.COLOR_PAIR VC_RED_ON_WHITE,
            c.COLOR_PAIR VC_GREEN_ON_WHITE,
            Int.lor (c.COLOR_PAIR VC_GREEN_ON_WHITE) c.A_BOLD,
            c.COLOR_PAIR 1, Int.lor (c.COLOR_PAIR 1) c.A_BOLD,
            c.COLOR_PAIR 2, Int.lor (c.COLOR_PAIR 2) c.A_BOLD,
            c.COLOR_PAIR 3, Int.lor (c.COLOR_PAIR 3) c.A_BOLD,
            c.COLOR_PAIR 4, Int.lor (c.COLOR_PAIR 4) c.A_BOLD]
      ∧ (view_colors.ctor c).vc_role_reverse_colors
        = [Int.lor (Int.lor (c.COLOR_PAIR VC_WHITE) c.A_DIM) c.A_REVERSE,
            Int.lor (Int.lor (Int.lor (c.COLOR_PAIR VC_WHITE) c.A_DIM) c.A_REVERSE) c.A_REVERSE,
            Int.lor (Int.lor (c.COLOR_PAIR VC_GREEN) c.A_BOLD) c.A_REVERSE,
            Int.lor (Int.lor (c.COLOR_PAIR VC_RED) c.A_BOLD) c.A_REVERSE,
            Int.lor (Int.lor (c.COLOR_PAIR VC_YELLOW) c.A_BOLD) c.A_REVERSE,
            Int.lor (Int.lor (c.COLOR_PAIR VC_WHITE) c.A_BOLD) c.A_REVERSE,
            Int.lor (c.COLOR_PAIR VC_BLACK_ON_WHITE) c.A_REVERSE,
            Int.lor (Int.lor (c.COLOR_PAIR VC_YELLOW_ON_WHITE) c.A_BOLD) c.A_REVERSE,
            Int.lor (c.COLOR_PAIR VC_RED_ON_WHITE) c.A_REVERSE,
            Int.lor (c.COLOR_PAIR VC_GREEN_ON_WHITE) c.A_REVERSE,
            Int.lor (Int.lor (c.COLOR_PAIR VC_GREEN_ON_WHITE) c.A_BOLD) c.A_REVERSE,
            Int.lor (c.COLOR_PAIR (1 + HL_COLOR_COUNT)) c.A_REVERSE,
            Int.lor (Int.lor (c.COLOR_PAIR 1) c.A_BOLD) c.A_REVERSE,
            Int.lor (c.COLOR_PAIR (2 + HL_COLOR_COUNT)) c.A_REVERSE,
            Int.lor (Int.lor (c.COLOR_PAIR 2) c.A_BOLD) c.A_REVERSE,
            Int.lor (c.COLOR_PAIR (3 + HL_COLOR_COUNT)) c.A_REVERSE,
            Int.lor (Int.lor (c.COLOR_PAIR 3) c.A_BOLD) c.A_REVERSE,
            Int.lor (c.COLOR_PAIR (4 + HL_COLOR_COUNT)) c.A_REVERSE,
            Int.lor (Int.lor (c.COLOR_PAIR 4) c.A_BOLD) c.A_REVERSE] := by
  simp only [view_colors.ctor, role_array_size, fixed_roles_eq, reverse_roles_eq,
    highlight_roles_eq, and_self]

theorem next_highlight_cursor (vc : view_colors) (h : 0 ≤ vc.vc_next_highlight) :
    (next_highlight vc).2.vc_next_highlight = (vc.vc_next_highlight + 1) % 8 := by
  show Int.tmod (vc.vc_next_highlight + 1) (HL_COLOR_COUNT * 2) = _
  rw [Int.tmod_eq_emod (by omega) (by decide)]
  rfl

/-- In every reachable state the highlight cursor lies in `[0, 8)`. -/
theorem reachable_cursor {c : curses_h} {vc : view_colors} (h : reachable c vc) :
    0 ≤ vc.vc_next_highlight ∧ vc.vc_next_highlight < 8 := by
  induction h with
  | ctor => rw [ctor_next_highlight]; omega
  | step _ ih =>
    rw [next_highlight_cursor _ ih.1]
    omega

theorem next_highlights_eq (n : Nat) (vc : view_colors)
    (h : 0 ≤ vc.vc_next_highlight ∧ vc.vc_next_highlight < 8) :
    next_highlights n vc
      = (List.range n).map (fun (i : Nat) => VCR__MAX + (vc.vc_next_highlight + (i : Int)) % 8) := by
  induction n generalizing vc with
  | zero => rfl
  | succ n ih =>
    have hc := next_highlight_cursor vc h.1
    have h2 : 0 ≤ (next_highlight vc).2.vc_next_highlight
        ∧ (next_highlight vc).2.vc_next_highlight < 8 := by
      rw [hc]; omega
    rw [next_highlights, ih _ h2, List.range_succ_eq_map, List.map_cons, List.map_map, hc]
    congr 1
    · show VCR__MAX + vc.vc_next_highlight = VCR__MAX + (vc.vc_next_highlight + ((0 : Nat) : Int)) % 8
      have : (vc.vc_next_highlight + ((0 : Nat) : Int)) % 8 = vc.vc_next_highlight := by
        omega
      rw [this]
    · apply List.map_congr_left
      intro i _
      show VCR__MAX + ((vc.vc_next_highlight + 1) % 8 + (i : Int)) % 8
        = VCR__MAX + (vc.vc_next_highlight + ((i + 1 : Nat) : Int)) % 8
      congr 1
      omega

/-- C9: from any reachable state of the style table, 8 consecutive calls of
`next_highlight` return 8 pairwise distinct roles and the 9th call returns the
role of the 1st; from the freshly constructed table the call number `i`,
counting from 0, returns `VCR__MAX + (i mod 8)`. -/
theorem next_highlight_cycle (c : curses_h) (vc : view_colors) (h : reachable c vc) :
    (next_highlights 8 vc).length = 8
      ∧ (next_highlights 8 vc).Nodup
      ∧ (next_highlights 9 vc)[8]? = (next_highlights 9 vc)[0]?
      ∧ ∀ i : Nat, (next_highlights (i + 1) (view_colors.ctor c))[i]?
          = some (VCR__MAX + ((i % 8 : Nat) : Int)) := by
  have hc := reachable_cursor h
  refine ⟨?_, ?_, ?_, ?_⟩
  · rw [next_highlights_eq 8 vc hc]; simp
  · rw [next_highlights_eq 8 vc hc]
    generalize vc.vc_next_highlight = k at hc
    obtain ⟨h0, h8⟩ := hc
    interval_cases k <;> decide
  · rw [next_highlights_eq 9 vc hc]
    generalize vc.vc_next_highlight = k at hc
    obtain ⟨h0, h8⟩ := hc
    interval_cases k <;> decide
  · intro i
    rw [next_highlights_eq (i + 1) _ (reachable_cursor reachable.ctor), ctor_next_highlight]
    simp only [List.getElem?_map, List.getElem?_range (Nat.lt_succ_self i), Option.map_some']
    congr 2
    omega

/-- Witness of C9: the table after one call of `next_highlight`. -/
theorem next_highlight_cycle_witness :
    (next_highlights 8 (next_highlight (view_colors.ctor ncurses)).2).Nodup
      ∧ next_highlights 9 (next_highlight (view_colors.ctor ncurses)).2
        = [12, 13, 14, 15, 16, 17, 18, 11, 12] :=
  ⟨(next_highlight_cycle ncurses (next_highlight (view_colors.ctor ncurses)).2
      (reachable.step reachable.ctor)).2.1, by decide⟩

/-! ## The renderer at concrete inputs -/

/-- C1 at the line "a\tb": the expansion records the tab at offset 1 and puts
the "b" at index 9 of the expanded text, and the range [2,3) is remapped to
[10,11), one column past the "b", and not to [9,10). -/
theorem remap_after_one_tab :
    expansion "a\tb".toList = ("a        b".toList, [1])
      ∧ remap_range (expansion "a\tb".toList).2 ⟨2, 3⟩ = ⟨10, 11⟩
      ∧ (expansion "a\tb".toList).1[9]? = some 'b'
      ∧ (expansion "a\tb".toList).1[10]? = none := by
  decide

/-- C2 at the line "err\tX" with the range [4,5) tagged style = A_BOLD, base
role VCR_TEXT and viewport [0,12): the range clips to [12,12), of length 0,
and the read-back and the re-write are issued all the same, with a count of
0; for the range [5,6) of "abcdef" in the viewport [0,3) they are issued with
the negative count -2. -/
theorem empty_range_is_painted :
    clipped_range "err\tX".toList ⟨0, 12⟩ ⟨4, 5⟩ = ⟨12, 12⟩
      ∧ mvwattrline (view_colors.ctor ncurses) 0 0
          ⟨"err\tX".toList, [(⟨4, 5⟩, [("style", ncurses.A_BOLD)])]⟩ ⟨0, 12⟩ VCR_TEXT
        = some (⟨"err        X".toList, [(⟨4, 5⟩, [("style", ncurses.A_BOLD)])]⟩,
            [Op.wmove 0 0, Op.wattron 1051392, Op.waddnstr "err        X".toList 12,
              Op.wattroff 1051392,
              Op.mvwinnstr 0 12 0, Op.wattron 2097152, Op.mvwaddnstr 0 12 0,
              Op.wattroff 2097152])
      ∧ clipped_range "abcdef".toList ⟨0, 3⟩ ⟨5, 6⟩ = ⟨5, 3⟩
      ∧ overlay (expansion "abcdef".toList).2 0 0 ⟨0, 3⟩ (line_range.length ⟨0, 3⟩)
          (⟨5, 6⟩, [("style", ncurses.A_BOLD)])
        = some [Op.mvwinnstr 0 5 (-2), Op.wattron 2097152, Op.mvwaddnstr 0 5 (-2),
            Op.wattroff 2097152] := by
  decide

/-- C3 at the line "a\tb\tc": its tabs are at the offsets 1 and 3 of the
original text, and the expansion pass records 1 and 10, the second being the
offset of the tab in the text whose first tab is already expanded. -/
theorem tab_list_of_two_tabs :
    offsets_of '\t' "a\tb\tc".toList 0 = [1, 3]
      ∧ (expansion "a\tb\tc".toList).2 = [1, 10] := by
  decide

/-- C5 at the text "ab" and the viewport [5,8), which starts past the end of
the text: the base paint writes no text and asks for 6 blank cells, twice the
width 3 of the viewport. -/
theorem base_paint_past_text :
    mvwattrline (view_colors.ctor ncurses) 0 0 ⟨"ab".toList, []⟩ ⟨5, 8⟩ VCR_TEXT
        = some (⟨"ab".toList, []⟩,
            [Op.wmove 0 0, Op.wattron 1051392, Op.whline ' ' 6, Op.wattroff 1051392])
      ∧ ((base_paint 0 0 "ab".toList ⟨5, 8⟩ 1051392).map Op.text_cells).sum = 0
      ∧ ((base_paint 0 0 "ab".toList ⟨5, 8⟩ 1051392).map Op.blank_cells).sum = 6
      ∧ line_range.length ⟨5, 8⟩ = 3 := by
  decide

/-! ## What the code does where it departs from the specification -/

theorem tab_columns_eq_enumFrom (l : List Char) (i j : Nat) :
    tab_columns l (i + 7 * j)
      = ((offsets_of '\t' l i).enumFrom j).map (fun p => p.2 + 7 * p.1) := by
  induction l generalizing i j with
  | nil => rfl
  | cons a rest ih =>
    by_cases h : a = '\t'
    · have e : i + 7 * j + 8 = (i + 1) + 7 * (j + 1) := by omega
      simp only [tab_columns, offsets_of, h, if_true, List.enumFrom_cons, List.map_cons, e, ih]
    · have e : i + 7 * j + 1 = (i + 1) + 7 * j := by omega
      simp only [tab_columns, offsets_of, h, if_false, e, ih]

/-- The tab list that the expansion pass records holds, for the tab number `j`
of the line (counting from 0), its offset in the original text plus `7 * j`:
its offset in the text whose earlier tabs are already expanded. -/
theorem tab_list_eq (line : List Char) :
    (expansion line).2 = ((offsets_of '\t' line 0).enum).map (fun p => p.2 + 7 * p.1) := by
  rw [expansion_eq]
  exact tab_columns_eq_enumFrom line 0 0

theorem lower_bound_singleton_of_lt (k : Nat) (p : Int) (h : (k : Int) < p) :
    lower_bound [k] p = 1 := by
  simp [lower_bound, lower_bound_loop, h]

theorem tab_list_of_one_tab {line : List Char} {k : Nat} (hk : find line '\t' = some k)
    (hone : line.count '\t' = 1) : (expansion line).2 = [k] := by
  obtain ⟨pre, post, rfl, hpre, rfl⟩ := find_eq_some hk
  have hpost : '\t' ∉ post := by
    rw [← List.count_eq_zero]
    simp only [List.count_append, List.count_cons_self, List.count_eq_zero.mpr hpre] at hone
    omega
  have h2 := tab_columns_of_not_mem hpost [] (pre.length + 8)
  simp only [List.append_nil, tab_columns] at h2
  rw [expansion_eq]
  show tab_columns (pre ++ '\t' :: post) 0 = [pre.length]
  rw [tab_columns_of_not_mem hpre]
  simp [tab_columns, h2]

/-- In a line with exactly one tab, at offset `k`, the start of a style range
and its finite end, when they lie after `k`, are remapped 8 columns to the
right. -/
theorem remap_one_tab (line : List Char) (k : Nat) (p q : Int)
    (hk : find line '\t' = some k) (hone : line.count '\t' = 1)
    (hp : (k : Int) < p) (hq : (k : Int) < q) :
    remap_range (expansion line).2 ⟨p, q⟩ = ⟨p + 8, q + 8⟩ := by
  have hq1 : q ≠ -1 := by omega
  rw [tab_list_of_one_tab hk hone]
  simp [remap_range, hq1, lower_bound_singleton_of_lt k p hp, lower_bound_singleton_of_lt k q hq]

/-- The line "x\ty" has its tab at offset 1; the range [2,3) moves to [10,11). -/
theorem remap_one_tab_witness :
    remap_range (expansion "x\ty".toList).2 ⟨2, 3⟩ = ⟨2 + 8, 3 + 8⟩ :=
  remap_one_tab "x\ty".toList 1 2 3 (by decide) (by decide) (by decide) (by decide)

/-- A valid style range is painted exactly when its clipped end is positive,
whatever its clipped start: the loop body issues no call if and only if the
clipped end is at most 0. -/
theorem overlay_paint_test (line : List Char) (y x : Int) (lr r : line_range)
    (am : attrs_map_t) (hstart : 0 ≤ r.lr_start) (hend : -1 ≤ r.lr_end) :
    overlay (expansion line).2 y x lr lr.length (r, am) = some []
      ↔ (clipped_range line lr r).lr_end ≤ 0 := by
  rw [overlay_of_valid _ _ _ _ _ _ _ hstart hend]
  show some (paint_range y x (clipped_range line lr r) am) = some [] ↔ _
  by_cases h : (clipped_range line lr r).lr_end > 0
  · rw [paint_range_of_pos _ _ _ _ h]
    constructor
    · intro e; cases e
    · intro e; omega
  · simp only [paint_range, h, if_false, true_iff]
    omega

/-- The range [5,6) of "abcdef" clips to the end 3 in the viewport [0,3) and
is painted; in the viewport [7,9) it clips to the end -1 and is not. -/
theorem overlay_paint_test_witness :
    ¬ (overlay (expansion "abcdef".toList).2 0 0 ⟨0, 3⟩ (line_range.length ⟨0, 3⟩)
        (⟨5, 6⟩, []) = some [])
      ∧ overlay (expansion "abcdef".toList).2 0 0 ⟨7, 9⟩ (line_range.length ⟨7, 9⟩)
        (⟨5, 6⟩, []) = some [] :=
  ⟨fun h => absurd ((overlay_paint_test "abcdef".toList 0 0 ⟨0, 3⟩ ⟨5, 6⟩ []
      (by decide) (by decide)).mp h) (by decide),
    (overlay_paint_test "abcdef".toList 0 0 ⟨7, 9⟩ ⟨5, 6⟩ [] (by decide) (by decide)).mpr
      (by decide)⟩

/-- For a viewport [s,e) with 0 <= s <= e that starts at or before the end of
the text, the characters the base paint writes and the blank cells it draws
add up to the width e - s; when it starts past the end of a text of length n,
no text is written and e - n blank cells are drawn. -/
theorem base_paint_cells (y x : Int) (line : List Char) (s e attrs : Int)
    (hs : 0 ≤ s) (hse : s ≤ e) :
    ((s ≤ (line.length : Int)) →
        ((base_paint y x line ⟨s, e⟩ attrs).map Op.text_cells).sum
          + ((base_paint y x line ⟨s, e⟩ attrs).map Op.blank_cells).sum = e - s)
      ∧ (((line.length : Int) < s) →
        ((base_paint y x line ⟨s, e⟩ attrs).map Op.text_cells).sum = 0
          ∧ ((base_paint y x line ⟨s, e⟩ attrs).map Op.blank_cells).sum
            = e - (line.length : Int)) := by
  have he : ¬ e = -1 := by omega
  have hdrop : ((line.drop s.toNat).length : Int) = (line.length : Int) - s
      ∨ ((line.length : Int) < s) := by
    by_cases h : s ≤ (line.length : Int)
    · left
      rw [List.length_drop]
      omega
    · right; omega
  constructor
  · intro hsn
    rcases hdrop with hd | hd
    · by_cases h1 : s < (line.length : Int)
      · by_cases h2 : e > (line.length : Int)
        · have hw : ¬ (e - s < 0) := by omega
          simp only [base_paint, line_range.length, he, h1, h2, if_true, if_false,
            List.cons_append, List.nil_append, List.map_cons, List.map_nil, Op.text_cells,
            Op.blank_cells, List.sum_cons, List.sum_nil, hw, hd]
          have := min_eq_right (show (line.length : Int) - s ≤ e - s by omega)
          have := max_eq_left (show (0 : Int) ≤ e - (line.length : Int) by omega)
          omega
        · have hw : ¬ (e - s < 0) := by omega
          simp only [base_paint, line_range.length, he, h1, h2, if_true, if_false,
            List.cons_append, List.nil_append, List.append_nil, List.map_cons, List.map_nil,
            Op.text_cells, Op.blank_cells, List.sum_cons, List.sum_nil, hw, hd]
          have := min_eq_left (show e - s ≤ (line.length : Int) - s by omega)
          omega
      · have h2 : e > (line.length : Int) ∨ e = (line.length : Int) := by omega
        rcases h2 with h2 | h2
        · simp only [base_paint, line_range.length, he, h1, h2, if_true, if_false,
            List.cons_append, List.nil_append, List.append_nil, List.map_cons, List.map_nil,
            Op.text_cells, Op.blank_cells, List.sum_cons, List.sum_nil]
          have := max_eq_left (show (0 : Int) ≤ e - (line.length : Int) by omega)
          omega
        · have h3 : ¬ e > (line.length : Int) := by omega
          simp only [base_paint, line_range.length, he, h1, h3, if_false,
            List.cons_append, List.nil_append, List.append_nil, List.map_cons, List.map_nil,
            Op.text_cells, Op.blank_cells, List.sum_cons, List.sum_nil]
          omega
    · omega
  · intro hns
    have h1 : ¬ s < (line.length : Int) := by omega
    have h2 : e > (line.length : Int) := by omega
    simp only [base_paint, line_range.length, he, h1, h2, if_true, if_false,
      List.cons_append, List.nil_append, List.append_nil, List.map_cons, List.map_nil,
      Op.text_cells, Op.blank_cells, List.sum_cons, List.sum_nil]
    have := max_eq_left (show (0 : Int) ≤ e - (line.length : Int) by omega)
    omega

/-- The text "hello" in the viewport [2,9): 3 characters and 4 blank cells. -/
theorem base_paint_cells_witness :
    ((base_paint 0 0 "hello".toList ⟨2, 9⟩ 0).map Op.text_cells).sum
      + ((base_paint 0 0 "hello".toList ⟨2, 9⟩ 0).map Op.blank_cells).sum = 9 - 2 :=
  (base_paint_cells 0 0 "hello".toList 2 9 0 (by decide) (by decide)).1 (by decide)


/-! ## The binary search over the tab list -/

theorem lower_bound_loop_spec (a : List Nat) (val : Int)
    (hsorted : ∀ i j, i ≤ j → j < a.length → a.getD i 0 ≤ a.getD j 0)
    (fuel first len : Nat) (hfuel : len ≤ fuel) (hbound : first + len ≤ a.length)
    (hlo : ∀ i, i < first → (a.getD i 0 : Int) < val)
    (hhi : ∀ i, first + len ≤ i → i < a.length → ¬ (a.getD i 0 : Int) < val) :
    lower_bound_loop a val fuel first len ≤ a.length
      ∧ (∀ i, i < lower_bound_loop a val fuel first len → (a.getD i 0 : Int) < val)
      ∧ (∀ i, lower_bound_loop a val fuel first len ≤ i → i < a.length →
          ¬ (a.getD i 0 : Int) < val) := by
  induction fuel generalizing first len with
  | zero =>
    have hlen : len = 0 := by omega
    subst hlen
    exact ⟨by simpa [lower_bound_loop] using hbound, by simpa [lower_bound_loop] using hlo,
      by simpa [lower_bound_loop] using hhi⟩
  | succ n ih =>
    by_cases hlen : len = 0
    · subst hlen
      simp only [lower_bound_loop, if_true]
      exact ⟨by omega, hlo, by simpa using hhi⟩
    · by_cases hmid : (a.getD (first + len / 2) 0 : Int) < val
      · simp only [lower_bound_loop, hlen, if_false, hmid, if_true]
        have hhalf : len / 2 < len := Nat.div_lt_self (by omega) (by decide)
        apply ih
        · omega
        · omega
        · intro i hi
          have hle := hsorted i (first + len / 2) (by omega) (by omega)
          have : (a.getD i 0 : Int) ≤ (a.getD (first + len / 2) 0 : Int) := by exact_mod_cast hle
          omega
        · intro i hi1 hi2
          exact hhi i (by omega) hi2
      · simp only [lower_bound_loop, hlen, if_false, hmid]
        have hhalf : len / 2 < len := Nat.div_lt_self (by omega) (by decide)
        apply ih
        · omega
        · omega
        · exact hlo
        · intro i hi1 hi2
          have hle := hsorted (first + len / 2) i hi1 hi2
          have : (a.getD (first + len / 2) 0 : Int) ≤ (a.getD i 0 : Int) := by exact_mod_cast hle
          omega

theorem countP_of_partition (p : Nat → Bool) (a : List Nat) (r : Nat) (hr : r ≤ a.length)
    (hlo : ∀ i, i < r → p (a.getD i 0) = true)
    (hhi : ∀ i, r ≤ i → i < a.length → p (a.getD i 0) = false) :
    a.countP p = r := by
  induction a generalizing r with
  | nil =>
    have : r = 0 := by simpa using hr
    simp [this]
  | cons x xs ih =>
    cases r with
    | zero =>
      rw [List.countP_eq_zero]
      intro y hy
      obtain ⟨i, hi, rfl⟩ := List.getElem_of_mem hy
      have := hhi i (by omega) hi
      rw [List.getD_eq_getElem _ 0 hi] at this
      simp [this]
    | succ r =>
      have hx : p x = true := by simpa using hlo 0 (by omega)
      rw [List.countP_cons_of_pos _ _ hx, ih r (by simpa using hr)]
      · intro i hi
        simpa using hlo (i + 1) (by omega)
      · intro i hi1 hi2
        simpa using hhi (i + 1) (by omega) (by simpa using hi2)

/-- On a list in ascending order the binary search returns the number of
elements that are less than the searched value. -/
theorem lower_bound_eq_countP (a : List Nat) (val : Int) (hsorted : a.Pairwise (· ≤ ·)) :
    lower_bound a val = a.countP (fun (t : Nat) => decide ((t : Int) < val)) := by
  have hs : ∀ i j, i ≤ j → j < a.length → a.getD i 0 ≤ a.getD j 0 := by
    intro i j hij hj
    rcases Nat.eq_or_lt_of_le hij with rfl | hlt
    · exact le_refl _
    · rw [List.getD_eq_getElem _ 0 hj, List.getD_eq_getElem _ 0 (by omega : i < a.length)]
      exact List.pairwise_iff_getElem.mp hsorted i j (by omega) hj hlt
  have h := lower_bound_loop_spec a val hs a.length 0 a.length (le_refl _) (by omega)
    (by intro i hi; omega) (by intro i hi1 hi2; omega)
  symm
  apply countP_of_partition _ a (lower_bound a val) h.1
  · intro i hi
    simpa using h.2.1 i hi
  · intro i hi1 hi2
    simpa using h.2.2 i hi1 hi2

theorem tab_columns_ge (l : List Char) (col : Nat) : ∀ t ∈ tab_columns l col, col ≤ t := by
  induction l generalizing col with
  | nil => simp [tab_columns]
  | cons a rest ih =>
    intro t ht
    by_cases h : a = '\t'
    · simp only [tab_columns, h, if_true, List.mem_cons] at ht
      rcases ht with rfl | ht
      · exact le_refl _
      · have := ih (col + 8) t ht
        omega
    · simp only [tab_columns, h, if_false] at ht
      have := ih (col + 1) t ht
      omega

/-- The tab list that the expansion pass records is strictly increasing. -/
theorem tab_list_strictly_increasing (line : List Char) :
    (expansion line).2.Pairwise (· < ·) := by
  rw [expansion_eq]
  show (tab_columns line 0).Pairwise (· < ·)
  generalize 0 = col
  induction line generalizing col with
  | nil => simp [tab_columns]
  | cons a rest ih =>
    by_cases h : a = '\t'
    · simp only [tab_columns, h, if_true, List.pairwise_cons]
      refine ⟨?_, ih (col + 8)⟩
      intro t ht
      have := tab_columns_ge rest (col + 8) t ht
      omega
    · simp only [tab_columns, h, if_false]
      exact ih (col + 1)


/-! ## The active attribute mask -/

theorem int_eq_zero_of_testBit (v : Int) (h : ∀ k, v.testBit k = false) : v = 0 := by
  cases v with
  | ofNat n =>
    have hn : n = 0 := by
      apply Nat.eq_of_testBit_eq
      intro i
      have := h i
      simpa [Int.testBit] using this
    subst hn
    rfl
  | negSucc n =>
    exfalso
    have h1 := h n
    have h2 : n.testBit n = false := Nat.testBit_eq_false_of_lt (Nat.lt_two_pow n)
    simp [Int.testBit, h2] at h1

theorem testBit_on_off (mask attrs : Int) (k : Nat)
    (h : (Int.ldiff (Int.lor mask attrs) attrs).testBit k = true) : mask.testBit k = true := by
  rw [Int.testBit_ldiff, Int.testBit_lor] at h
  cases hm : mask.testBit k
  · cases ha : attrs.testBit k <;> simp [hm, ha] at h
  · rfl

theorem attr_state_append (mask : Int) (a b : List Op) :
    attr_state mask (a ++ b) = attr_state (attr_state mask a) b := by
  simp [attr_state, List.foldl_append]

theorem attr_state_base_paint (mask : Int) (y x : Int) (line : List Char) (lr : line_range)
    (attrs : Int) :
    attr_state mask (base_paint y x line lr attrs) = Int.ldiff (Int.lor mask attrs) attrs := by
  unfold base_paint
  by_cases h1 : lr.lr_start < (line.length : Int) <;>
    by_cases h2 : lr.lr_end > (line.length : Int) <;>
    simp [attr_state, attr_step, h1, h2]

theorem attr_state_paint_range (mask : Int) (y x : Int) (cr : line_range) (am : attrs_map_t) :
    attr_state mask (paint_range y x cr am) = mask
      ∨ attr_state mask (paint_range y x cr am)
        = Int.ldiff (Int.lor mask (style_attrs am)) (style_attrs am) := by
  unfold paint_range
  by_cases h : cr.lr_end > 0
  · right; simp [attr_state, attr_step, h]
  · left; simp [attr_state, h]

theorem attr_state_overlays (tab_list : List Nat) (y x : Int) (lr : line_range)
    (line_width : Int) (sa : string_attrs_t) (ops : List Op) (mask : Int)
    (h : overlays tab_list y x lr line_width sa = some ops) (k : Nat)
    (hk : (attr_state mask ops).testBit k = true) : mask.testBit k = true := by
  induction sa generalizing ops mask with
  | nil =>
    simp only [overlays, Option.some.injEq] at h
    subst h
    exact hk
  | cons entry rest ih =>
    cases h1 : overlay tab_list y x lr line_width entry with
    | none => simp [overlays, h1] at h
    | some first =>
      cases h2 : overlays tab_list y x lr line_width rest with
      | none => simp [overlays, h1, h2] at h
      | some more =>
        simp only [overlays, h1, h2, Option.some.injEq] at h
        subst h
        rw [attr_state_append] at hk
        have hfirst := ih more (attr_state mask first) h2 hk
        have hv : ¬ (entry.1.lr_start < 0 ∨ entry.1.lr_end < -1) := by
          rw [← overlay_eq_none_iff tab_list y x lr line_width entry, h1]; simp
        have hform : first = paint_range y x
            (clip_range lr line_width (remap_range tab_list entry.1)) entry.2 := by
          have := overlay_of_valid tab_list y x lr line_width entry.1 entry.2
            (by omega) (by omega)
          rw [show (entry.1, entry.2) = entry from rfl, h1] at this
          exact Option.some.inj this
        rw [hform] at hfirst
        rcases attr_state_paint_range mask y x
          (clip_range lr line_width (remap_range tab_list entry.1)) entry.2 with e | e
        · rw [e] at hfirst; exact hfirst
        · rw [e] at hfirst; exact testBit_on_off _ _ _ hfirst

theorem bracketed_base_paint (y x : Int) (line : List Char) (lr : line_range) (attrs : Int)
    (rest : List Op) :
    bracketed none (base_paint y x line lr attrs ++ rest) = bracketed none rest := by
  unfold base_paint
  by_cases h1 : lr.lr_start < (line.length : Int) <;>
    by_cases h2 : lr.lr_end > (line.length : Int) <;>
    simp [bracketed, h1, h2]

theorem bracketed_paint_range (y x : Int) (cr : line_range) (am : attrs_map_t)
    (rest : List Op) :
    bracketed none (paint_range y x cr am ++ rest) = bracketed none rest := by
  unfold paint_range
  by_cases h : cr.lr_end > 0 <;> simp [bracketed, h]

theorem bracketed_overlays (tab_list : List Nat) (y x : Int) (lr : line_range)
    (line_width : Int) (sa : string_attrs_t) (ops : List Op)
    (h : overlays tab_list y x lr line_width sa = some ops) : bracketed none ops = true := by
  induction sa generalizing ops with
  | nil =>
    simp only [overlays, Option.some.injEq] at h
    subst h
    rfl
  | cons entry rest ih =>
    cases h1 : overlay tab_list y x lr line_width entry with
    | none => simp [overlays, h1] at h
    | some first =>
      cases h2 : overlays tab_list y x lr line_width rest with
      | none => simp [overlays, h1, h2] at h
      | some more =>
        simp only [overlays, h1, h2, Option.some.injEq] at h
        subst h
        have hv : ¬ (entry.1.lr_start < 0 ∨ entry.1.lr_end < -1) := by
          rw [← overlay_eq_none_iff tab_list y x lr line_width entry, h1]; simp
        have hform : first = paint_range y x
            (clip_range lr line_width (remap_range tab_list entry.1)) entry.2 := by
          have := overlay_of_valid tab_list y x lr line_width entry.1 entry.2
            (by omega) (by omega)
          rw [show (entry.1, entry.2) = entry from rfl, h1] at this
          exact Option.some.inj this
        rw [hform, bracketed_paint_range]
        exact ih more h2

theorem mvwattrline_ops (vc : view_colors) (y x : Int) (al : attr_line_t) (lr : line_range)
    (base_role : Int) (al2 : attr_line_t) (ops : List Op)
    (h : mvwattrline vc y x al lr base_role = some (al2, ops)) :
    ∃ text_attrs more,
      attrs_for_role vc base_role = some text_attrs
        ∧ overlays (expansion al.al_string).2 y x lr lr.length al.al_attrs = some more
        ∧ ops = base_paint y x (expansion al.al_string).1 lr text_attrs ++ more := by
  simp only [mvwattrline] at h
  by_cases h1 : lr.lr_end = -1
  · simp [h1] at h
  · cases h2 : attrs_for_role vc base_role with
    | none => simp [h1, h2] at h
    | some text_attrs =>
      cases h3 : overlays (expansion al.al_string).2 y x lr lr.length al.al_attrs with
      | none => simp [h1, h2, h3] at h
      | some more =>
        simp only [h1, h2, h3, ne_eq, not_false_eq_true, not_true_eq_false, if_false,
          Option.some.injEq, Prod.mk.injEq] at h
        exact ⟨text_attrs, more, rfl, rfl, h.2.symm⟩

/-- C12: with the active attribute mask of the window as state (`wattron` ors
its mask in, `wattroff` removes the bits of its mask), a call of `mvwattrline`
that returns leaves a mask without any bit that was not active at entry, and
the mask 0 when the mask was 0 at entry; every `wattron` it issues is followed
by a `wattroff` of the same mask before the next `wattron` and before the
return. -/
theorem mvwattrline_attr_mask (vc : view_colors) (y x : Int) (al : attr_line_t)
    (lr : line_range) (base_role : Int) (al2 : attr_line_t) (ops : List Op)
    (h : mvwattrline vc y x al lr base_role = some (al2, ops)) :
    (∀ (mask : Int) (k : Nat), (attr_state mask ops).testBit k = true → mask.testBit k = true)
      ∧ attr_state 0 ops = 0
      ∧ bracketed none ops = true := by
  obtain ⟨text_attrs, more, _, hmore, rfl⟩ := mvwattrline_ops vc y x al lr base_role al2 ops h
  have hbits : ∀ (mask : Int) (k : Nat),
      (attr_state mask (base_paint y x (expansion al.al_string).1 lr text_attrs ++ more)).testBit k
        = true → mask.testBit k = true := by
    intro mask k hk
    rw [attr_state_append, attr_state_base_paint] at hk
    exact testBit_on_off _ _ _
      (attr_state_overlays _ y x lr lr.length al.al_attrs more _ hmore k hk)
  refine ⟨hbits, ?_, ?_⟩
  · apply int_eq_zero_of_testBit
    intro k
    cases hk : (attr_state 0
      (base_paint y x (expansion al.al_string).1 lr text_attrs ++ more)).testBit k
    · rfl
    · have := hbits 0 k hk
      simp [Int.testBit] at this
  · rw [bracketed_base_paint]
    exact bracketed_overlays _ y x lr lr.length al.al_attrs more hmore

/-- Witness of C12: the line "err\tX" with a "style" range [1,2) in the
viewport [0,12): the calls leave the mask 0 at 0 and are bracketed. -/
theorem mvwattrline_attr_mask_witness :
    attr_state 0
        [Op.wmove 0 0, Op.wattron 1051392, Op.waddnstr "err        X".toList 12,
          Op.wattroff 1051392, Op.mvwinnstr 0 1 1, Op.wattron 2097152, Op.mvwaddnstr 0 1 1,
          Op.wattroff 2097152] = 0
      ∧ bracketed none
        [Op.wmove 0 0, Op.wattron 1051392, Op.waddnstr "err        X".toList 12,
          Op.wattroff 1051392, Op.mvwinnstr 0 1 1, Op.wattron 2097152, Op.mvwaddnstr 0 1 1,
          Op.wattroff 2097152] = true :=
  (mvwattrline_attr_mask (view_colors.ctor ncurses) 0 0
    ⟨"err\tX".toList, [(⟨1, 2⟩, [("style", 2097152)])]⟩ ⟨0, 12⟩ VCR_TEXT
    ⟨"err        X".toList, [(⟨1, 2⟩, [("style", 2097152)])]⟩ _ (by decide)).2

/-! ## The order of the style ranges -/

theorem line_range_lt_iff (a b : line_range) :
    a.lt b = true
      ↔ a.lr_start < b.lr_start ∨ (a.lr_start = b.lr_start ∧ a.lr_end < b.lr_end) := by
  unfold line_range.lt
  by_cases h1 : a.lr_start < b.lr_start
  · simp [h1]
  · by_cases h2 : a.lr_start > b.lr_start
    · simp only [h1, h2, if_true, if_false, false_or]
      constructor
      · intro h; cases h
      · rintro ⟨h, _⟩; omega
    · have h3 : a.lr_start = b.lr_start := by omega
      by_cases h4 : a.lr_end < b.lr_end <;> simp [h1, h2, h3, h4]

theorem overlays_append (tab_list : List Nat) (y x : Int) (lr : line_range)
    (line_width : Int) (sa sb : string_attrs_t) :
    overlays tab_list y x lr line_width (sa ++ sb)
      = match overlays tab_list y x lr line_width sa,
          overlays tab_list y x lr line_width sb with
        | some first, some more => some (first ++ more)
        | _, _ => none := by
  induction sa with
  | nil =>
    cases h : overlays tab_list y x lr line_width sb <;> simp [overlays, h]
  | cons entry rest ih =>
    cases h1 : overlay tab_list y x lr line_width entry with
    | none => simp [overlays, h1]
    | some ops =>
      cases h2 : overlays tab_list y x lr line_width rest with
      | none =>
        rw [h2] at ih
        simp [overlays, h1, h2, ih]
      | some more =>
        rw [h2] at ih
        cases h3 : overlays tab_list y x lr line_width sb with
        | none =>
          rw [h3] at ih
          simp [overlays, h1, h2, ih]
        | some last =>
          rw [h3] at ih
          simp [overlays, h1, h2, ih]

/-- C13: `operator<` of `line_range` is the lexicographic order on (start,
end); it is irreflexive and transitive and orders any two ranges that differ
in start or end one way or the other. The entries of a map keyed by it come in
ascending order of `operator<`, so by ascending start and, for equal starts,
ascending end, and the overlay pass issues the calls of an earlier entry
before those of a later one. -/
theorem line_range_lt_order :
    (∀ a b : line_range, a.lt b = true
        ↔ a.lr_start < b.lr_start ∨ (a.lr_start = b.lr_start ∧ a.lr_end < b.lr_end))
      ∧ (∀ a : line_range, a.lt a = false)
      ∧ (∀ a b c : line_range, a.lt b = true → b.lt c = true → a.lt c = true)
      ∧ (∀ a b : line_range, a ≠ b → (a.lt b = true ∧ b.lt a = false)
          ∨ (b.lt a = true ∧ a.lt b = false))
      ∧ (∀ sa : string_attrs_t, sa.Pairwise (fun e1 e2 => e1.1.lt e2.1 = true) →
          sa.Pairwise (fun e1 e2 => e1.1.lr_start < e2.1.lr_start
            ∨ (e1.1.lr_start = e2.1.lr_start ∧ e1.1.lr_end < e2.1.lr_end)))
      ∧ (∀ (tab_list : List Nat) (y x : Int) (lr : line_range) (line_width : Int)
          (sa sb : string_attrs_t) (first more : List Op),
          overlays tab_list y x lr line_width sa = some first →
          overlays tab_list y x lr line_width sb = some more →
          overlays tab_list y x lr line_width (sa ++ sb) = some (first ++ more)) := by
  refine ⟨line_range_lt_iff, ?_, ?_, ?_, ?_, ?_⟩
  · intro a
    cases h : a.lt a
    · rfl
    · have := (line_range_lt_iff a a).mp h
      omega
  · intro a b c hab hbc
    have h1 := (line_range_lt_iff a b).mp hab
    have h2 := (line_range_lt_iff b c).mp hbc
    apply (line_range_lt_iff a c).mpr
    omega
  · intro a b hne
    have hdiff : a.lr_start ≠ b.lr_start ∨ a.lr_end ≠ b.lr_end := by
      by_contra hcon
      simp only [not_or, not_not] at hcon
      apply hne
      cases a; cases b
      simp only [line_range.mk.injEq]
      exact hcon
    have iab := line_range_lt_iff a b
    have iba := line_range_lt_iff b a
    by_cases hlt : a.lr_start < b.lr_start ∨ (a.lr_start = b.lr_start ∧ a.lr_end < b.lr_end)
    · left
      refine ⟨iab.mpr hlt, ?_⟩
      cases h : b.lt a
      · rfl
      · have := iba.mp h
        omega
    · right
      have hgt : b.lr_start < a.lr_start ∨ (b.lr_start = a.lr_start ∧ b.lr_end < a.lr_end) := by
        omega
      refine ⟨iba.mpr hgt, ?_⟩
      cases h : a.lt b
      · rfl
      · exact absurd (iab.mp h) hlt
  · intro sa h
    exact h.imp (fun hlt => (line_range_lt_iff _ _).mp hlt)
  · intro tab_list y x lr line_width sa sb first more h1 h2
    rw [overlays_append, h1, h2]

/-- Witness of C13: three entries in ascending order of `operator<`. -/
theorem line_range_lt_order_witness :
    List.Pairwise
      (fun (e1 e2 : line_range × attrs_map_t) => e1.1.lr_start < e2.1.lr_start
        ∨ (e1.1.lr_start = e2.1.lr_start ∧ e1.1.lr_end < e2.1.lr_end))
      [(⟨1, 3⟩, []), (⟨1, 5⟩, []), (⟨2, 0⟩, [])] :=
  line_range_lt_order.2.2.2.2.1 [(⟨1, 3⟩, []), (⟨1, 5⟩, []), (⟨2, 0⟩, [])] (by decide)

/-! ## The style table under next_highlight -/

theorem after_highlights_arrays (n : Nat) (vc : view_colors) :
    (after_highlights n vc).vc_role_colors = vc.vc_role_colors
      ∧ (after_highlights n vc).vc_role_reverse_colors = vc.vc_role_reverse_colors := by
  induction n generalizing vc with
  | zero => exact ⟨rfl, rfl⟩
  | succ n ih =>
    have := ih (next_highlight vc).2
    exact ⟨this.1, this.2⟩

theorem reachable_arrays {c : curses_h} {vc : view_colors} (h : reachable c vc) :
    vc.vc_role_colors = (view_colors.ctor c).vc_role_colors
      ∧ vc.vc_role_reverse_colors = (view_colors.ctor c).vc_role_reverse_colors := by
  induction h with
  | ctor => exact ⟨rfl, rfl⟩
  | step _ ih => exact ih

/-- C14: `attrs_for_role` and `reverse_attrs_for_role` read the style table and
assign none of its fields, so they are functions of the table and the role and
repeated calls return the same value; `next_highlight` changes the highlight
cursor only, so after any number of calls of it both methods return, for
every role, what they returned before. -/
theorem next_highlight_frame (vc : view_colors) :
    (next_highlight vc).2.vc_role_colors = vc.vc_role_colors
      ∧ (next_highlight vc).2.vc_role_reverse_colors = vc.vc_role_reverse_colors
      ∧ (∀ (n : Nat) (role : Int),
          attrs_for_role (after_highlights n vc) role = attrs_for_role vc role
            ∧ reverse_attrs_for_role (after_highlights n vc) role
              = reverse_attrs_for_role vc role) := by
  refine ⟨rfl, rfl, ?_⟩
  intro n role
  have h := after_highlights_arrays n vc
  simp only [attrs_for_role, reverse_attrs_for_role, h.1, h.2, and_self]

/-! ## The remapping of the range coordinates -/

theorem lower_bound_tab_list (line : List Char) (p : Int) :
    lower_bound (expansion line).2 p
      = (expansion line).2.countP (fun (t : Nat) => decide ((t : Int) < p)) :=
  lower_bound_eq_countP _ p
    ((tab_list_strictly_increasing line).imp (fun h => Nat.le_of_lt h))

/-- C15: the tab list that the expansion pass records is strictly increasing,
so `lower_bound` over it returns the number of recorded offsets strictly less
than the value searched; the start of a range, and its end when it is not -1,
are remapped from `p` to `p` plus 8 times the number of recorded offsets below
`p`, an end of -1 is kept, and a coordinate with no recorded offset below it,
as in a line without tabs, is left as it is. -/
theorem remap_range_spec (line : List Char) (r : line_range) :
    (expansion line).2.Pairwise (· < ·)
      ∧ (∀ p : Int, lower_bound (expansion line).2 p
          = (expansion line).2.countP (fun (t : Nat) => decide ((t : Int) < p)))
      ∧ (remap_range (expansion line).2 r).lr_start
        = r.lr_start
          + 8 * ((expansion line).2.countP (fun (t : Nat) => decide ((t : Int) < r.lr_start)) : Int)
      ∧ (r.lr_end ≠ -1 → (remap_range (expansion line).2 r).lr_end
        = r.lr_end
          + 8 * ((expansion line).2.countP (fun (t : Nat) => decide ((t : Int) < r.lr_end)) : Int))
      ∧ (r.lr_end = -1 → (remap_range (expansion line).2 r).lr_end = -1)
      ∧ ((expansion line).2.countP (fun (t : Nat) => decide ((t : Int) < r.lr_start)) = 0 →
          (remap_range (expansion line).2 r).lr_start = r.lr_start)
      ∧ ((expansion line).2.countP (fun (t : Nat) => decide ((t : Int) < r.lr_end)) = 0 →
          (remap_range (expansion line).2 r).lr_end = r.lr_end)
      ∧ (find line '\t' = none → remap_range (expansion line).2 r = r) := by
  have hstart : (remap_range (expansion line).2 r).lr_start
      = r.lr_start
        + 8 * ((expansion line).2.countP (fun (t : Nat) => decide ((t : Int) < r.lr_start)) : Int) := by
    rw [← lower_bound_tab_list]
    by_cases h : r.lr_end = -1 <;> simp [remap_range, h]
  have hend : r.lr_end ≠ -1 → (remap_range (expansion line).2 r).lr_end
      = r.lr_end
        + 8 * ((expansion line).2.countP (fun (t : Nat) => decide ((t : Int) < r.lr_end)) : Int) := by
    intro h
    rw [← lower_bound_tab_list]
    simp [remap_range, h]
  have hkeep : r.lr_end = -1 → (remap_range (expansion line).2 r).lr_end = -1 := by
    intro h
    simp [remap_range, h]
  refine ⟨tab_list_strictly_increasing line, lower_bound_tab_list line, hstart, hend, hkeep,
    ?_, ?_, ?_⟩
  · intro h0
    rw [hstart, h0]
    simp
  · intro h0
    by_cases h : r.lr_end = -1
    · rw [hkeep h, h]
    · rw [hend h, h0]
      simp
  · intro hno
    have htabs := tab_list_of_no_tab (find_eq_none.mp hno)
    rw [htabs]
    cases r with
    | mk s e =>
      by_cases h : e = -1 <;> simp [remap_range, h, lower_bound_nil]

/-- Witness of C15: in the line "a\tb\tc" the tab list is [1, 10]; one of its
elements is below 5, and the end 5 of the range [2,5) moves to 13. -/
theorem remap_range_spec_witness :
    (remap_range (expansion "a\tb\tc".toList).2 ⟨2, 5⟩).lr_end
      = 5 + 8 * (((expansion "a\tb\tc".toList).2.countP
          (fun (t : Nat) => decide ((t : Int) < 5)) : Nat) : Int) :=
  (remap_range_spec "a\tb\tc".toList ⟨2, 5⟩).2.2.2.1 (by decide)

/-! ## The style mask of a range -/

theorem style_fold_eq (am : attrs_map_t) (acc : Int) :
    am.foldl (fun attrs e => if e.1 = "style" then Int.lor attrs e.2 else attrs) acc
      = ((style_entries am).map Prod.snd).foldl Int.lor acc := by
  induction am generalizing acc with
  | nil => rfl
  | cons e rest ih =>
    by_cases h : e.1 = "style"
    · simp only [List.foldl_cons, h, if_true, style_entries, List.filter_cons, decide_True,
        List.map_cons]
      exact ih _
    · simp only [List.foldl_cons, h, if_false, style_entries, List.filter_cons, decide_False]
      exact ih _

theorem style_attrs_eq (am : attrs_map_t) :
    style_attrs am = ((style_entries am).map Prod.snd).foldl Int.lor 0 :=
  style_fold_eq am 0

theorem style_entries_idem (am : attrs_map_t) : style_entries (style_entries am) = style_entries am := by
  simp [style_entries, List.filter_filter]

theorem style_attrs_style_entries (am : attrs_map_t) :
    style_attrs (style_entries am) = style_attrs am := by
  rw [style_attrs_eq, style_attrs_eq, style_entries_idem]

theorem overlay_style_entries (tab_list : List Nat) (y x : Int) (lr : line_range)
    (line_width : Int) (entry : line_range × attrs_map_t) :
    overlay tab_list y x lr line_width (entry.1, style_entries entry.2)
      = overlay tab_list y x lr line_width entry := by
  simp only [overlay, paint_range, style_attrs_style_entries]

theorem overlays_style_entries (tab_list : List Nat) (y x : Int) (lr : line_range)
    (line_width : Int) (sa : string_attrs_t) :
    overlays tab_list y x lr line_width (sa.map (fun e => (e.1, style_entries e.2)))
      = overlays tab_list y x lr line_width sa := by
  induction sa with
  | nil => rfl
  | cons entry rest ih =>
    simp only [List.map_cons, overlays, overlay_style_entries, ih]

/-- C16: the mask that `mvwattrline` switches on over the span of a painted
range is the bitwise or of the values of the entries of the range whose
category name is "style", 0 when there is none; the other entries have no
effect: for two lines with the same text and the same ranges that carry the
same "style" entries, `mvwattrline` fails on both or issues the same sequence
of window calls on both. -/
theorem style_entries_only (vc : view_colors) (y x : Int) (al al2 : attr_line_t)
    (lr : line_range) (base_role : Int)
    (htext : al.al_string = al2.al_string)
    (hstyle : al.al_attrs.map (fun e => (e.1, style_entries e.2))
      = al2.al_attrs.map (fun e => (e.1, style_entries e.2))) :
    (mvwattrline vc y x al lr base_role).map Prod.snd
        = (mvwattrline vc y x al2 lr base_role).map Prod.snd
      ∧ (∀ (cr : line_range) (am : attrs_map_t), cr.lr_end > 0 →
          paint_range y x cr am
            = [Op.mvwinnstr y (x + cr.lr_start) (cr.lr_end - cr.lr_start),
                Op.wattron (((style_entries am).map Prod.snd).foldl Int.lor 0),
                Op.mvwaddnstr y (x + cr.lr_start) (cr.lr_end - cr.lr_start),
                Op.wattroff (((style_entries am).map Prod.snd).foldl Int.lor 0)])
      ∧ (∀ am : attrs_map_t, style_entries am = [] → style_attrs am = 0) := by
  refine ⟨?_, ?_, ?_⟩
  · have hov : overlays (expansion al.al_string).2 y x lr lr.length al.al_attrs
        = overlays (expansion al2.al_string).2 y x lr lr.length al2.al_attrs := by
      rw [← overlays_style_entries _ _ _ _ _ al.al_attrs,
        ← overlays_style_entries _ _ _ _ _ al2.al_attrs, hstyle, htext]
    rw [htext] at hov
    simp only [mvwattrline, htext]
    by_cases h1 : lr.lr_end = -1
    · simp [h1]
    · cases h2 : attrs_for_role vc base_role with
      | none => simp [h1]
      | some text_attrs =>
        cases h3 : overlays (expansion al2.al_string).2 y x lr lr.length al2.al_attrs with
        | none => simp [h1, hov.trans h3]
        | some more => simp [h1, hov.trans h3]
  · intro cr am hpos
    rw [paint_range_of_pos y x cr am hpos, style_attrs_eq]
  · intro am hnone
    rw [style_attrs_eq, hnone]
    rfl

/-- Witness of C16: two lines with the text "hello" and the range [1,3), one
with a "style" entry only, one with an entry of the category "other" too. -/
theorem style_entries_only_witness :
    (mvwattrline (view_colors.ctor ncurses) 0 0
        ⟨"hello".toList, [(⟨1, 3⟩, [("other", 7), ("style", 2097152)])]⟩ ⟨0, 5⟩ VCR_TEXT).map
        Prod.snd
      = (mvwattrline (view_colors.ctor ncurses) 0 0
        ⟨"hello".toList, [(⟨1, 3⟩, [("style", 2097152)])]⟩ ⟨0, 5⟩ VCR_TEXT).map Prod.snd :=
  (style_entries_only (view_colors.ctor ncurses) 0 0
    ⟨"hello".toList, [(⟨1, 3⟩, [("other", 7), ("style", 2097152)])]⟩
    ⟨"hello".toList, [(⟨1, 3⟩, [("style", 2097152)])]⟩ ⟨0, 5⟩ VCR_TEXT rfl (by decide)).1

/-! ## The encodings of the roles -/

theorem int_eq_of_testBit (a b : Int) (h : ∀ k, a.testBit k = b.testBit k) : a = b := by
  cases a with
  | ofNat m =>
    cases b with
    | ofNat n =>
      have : m = n := Nat.eq_of_testBit_eq (fun i => by simpa [Int.testBit] using h i)
      rw [this]
    | negSucc n =>
      exfalso
      have hk := h (m + n)
      have h1 : m.testBit (m + n) = false :=
        Nat.testBit_eq_false_of_lt
          (lt_of_lt_of_le (Nat.lt_two_pow m) (Nat.pow_le_pow_right (by decide) (by omega)))
      have h2 : n.testBit (m + n) = false :=
        Nat.testBit_eq_false_of_lt
          (lt_of_lt_of_le (Nat.lt_two_pow n) (Nat.pow_le_pow_right (by decide) (by omega)))
      simp [Int.testBit, h1, h2] at hk
  | negSucc m =>
    cases b with
    | ofNat n =>
      exfalso
      have hk := h (m + n)
      have h1 : m.testBit (m + n) = false :=
        Nat.testBit_eq_false_of_lt
          (lt_of_lt_of_le (Nat.lt_two_pow m) (Nat.pow_le_pow_right (by decide) (by omega)))
      have h2 : n.testBit (m + n) = false :=
        Nat.testBit_eq_false_of_lt
          (lt_of_lt_of_le (Nat.lt_two_pow n) (Nat.pow_le_pow_right (by decide) (by omega)))
      simp [Int.testBit, h1, h2] at hk
    | negSucc n =>
      have : m = n := Nat.eq_of_testBit_eq (fun i => by
        have := h i
        simp only [Int.testBit] at this
        cases hm : m.testBit i <;> cases hn : n.testBit i <;> simp [hm, hn] at this ⊢)
      rw [this]

theorem land_lor_self (a b : Int) : Int.land (Int.lor a b) b = b := by
  apply int_eq_of_testBit
  intro k
  rw [Int.testBit_land, Int.testBit_lor]
  cases a.testBit k <;> cases b.testBit k <;> rfl

theorem reachable_attrs {c : curses_h} {vc : view_colors} (h : reachable c vc) (role : Int) :
    attrs_for_role vc role = attrs_for_role (view_colors.ctor c) role
      ∧ reverse_attrs_for_role vc role = reverse_attrs_for_role (view_colors.ctor c) role := by
  have ha := reachable_arrays h
  simp only [attrs_for_role, reverse_attrs_for_role, ha.1, ha.2, and_self]

/-- The normal encodings of the eight highlight roles of the constructed
table. -/
theorem ctor_highlight_attrs (c : curses_h) :
    attrs_for_role (view_colors.ctor c) 11 = some (c.COLOR_PAIR 1)
      ∧ attrs_for_role (view_colors.ctor c) 12 = some (Int.lor (c.COLOR_PAIR 1) c.A_BOLD)
      ∧ attrs_for_role (view_colors.ctor c) 13 = some (c.COLOR_PAIR 2)
      ∧ attrs_for_role (view_colors.ctor c) 14 = some (Int.lor (c.COLOR_PAIR 2) c.A_BOLD)
      ∧ attrs_for_role (view_colors.ctor c) 15 = some (c.COLOR_PAIR 3)
      ∧ attrs_for_role (view_colors.ctor c) 16 = some (Int.lor (c.COLOR_PAIR 3) c.A_BOLD)
      ∧ attrs_for_role (view_colors.ctor c) 17 = some (c.COLOR_PAIR 4)
      ∧ attrs_for_role (view_colors.ctor c) 18 = some (Int.lor (c.COLOR_PAIR 4) c.A_BOLD) := by
  simp only [attrs_for_role, (ctor_arrays c).1]
  refine ⟨rfl, rfl, rfl, rfl, rfl, rfl, rfl, rfl⟩

/-- C17 as the code has it: for `k` in 0..3 the highlight role
`VCR__MAX + 2k` has the normal encoding `COLOR_PAIR(k+1)` and the role
`VCR__MAX + 2k + 1` has `COLOR_PAIR(k+1) | A_BOLD`; with `A_BOLD` a bit outside
the colour-pair field, the encodings of two consecutive results of
`next_highlight` differ in the bold bit: plain then bold when the first call
finds an even cursor, bold then plain when it finds an odd one, which is the
case across the wrap-around. -/
theorem highlight_bold_alternates (c : curses_h) (vc : view_colors)
    (hfield : ∀ n, Int.land (c.COLOR_PAIR n) c.A_BOLD = 0) (hbold : c.A_BOLD ≠ 0)
    (h : reachable c vc) :
    (∀ k : Int, 0 ≤ k → k ≤ 3 →
        attrs_for_role vc (VCR__MAX + 2 * k) = some (c.COLOR_PAIR (k + 1))
          ∧ attrs_for_role vc (VCR__MAX + 2 * k + 1)
            = some (Int.lor (c.COLOR_PAIR (k + 1)) c.A_BOLD))
      ∧ ∃ e1 e2, attrs_for_role vc (next_highlight vc).1 = some e1
          ∧ attrs_for_role vc (next_highlight (next_highlight vc).2).1 = some e2
          ∧ Int.land e1 c.A_BOLD ≠ Int.land e2 c.A_BOLD
          ∧ (vc.vc_next_highlight % 2 = 0 →
              Int.land e1 c.A_BOLD = 0 ∧ Int.land e2 c.A_BOLD = c.A_BOLD)
          ∧ (vc.vc_next_highlight % 2 = 1 →
              Int.land e1 c.A_BOLD = c.A_BOLD ∧ Int.land e2 c.A_BOLD = 0) := by
  have key : ∀ role, attrs_for_role vc role = attrs_for_role (view_colors.ctor c) role :=
    fun role => (reachable_attrs h role).1
  have hl := ctor_highlight_attrs c
  have hne : (0 : Int) ≠ c.A_BOLD := fun e => hbold e.symm
  constructor
  · intro k hk0 hk3
    rw [key, key]
    interval_cases k
    · exact ⟨hl.1, hl.2.1⟩
    · exact ⟨hl.2.2.1, hl.2.2.2.1⟩
    · exact ⟨hl.2.2.2.2.1, hl.2.2.2.2.2.1⟩
    · exact ⟨hl.2.2.2.2.2.2.1, hl.2.2.2.2.2.2.2⟩
  · have hc := reachable_cursor h
    have r1 : (next_highlight vc).1 = VCR__MAX + vc.vc_next_highlight := rfl
    have r2 : (next_highlight (next_highlight vc).2).1
        = VCR__MAX + (vc.vc_next_highlight + 1) % 8 := by
      show VCR__MAX + (next_highlight vc).2.vc_next_highlight = _
      rw [next_highlight_cursor vc hc.1]
    rw [r1, r2, key, key]
    generalize vc.vc_next_highlight = cur at hc
    obtain ⟨h0, h8⟩ := hc
    interval_cases cur
    · exact ⟨_, _, hl.1, hl.2.1, by simp [hfield, land_lor_self, hne],
        by simp [hfield, land_lor_self], by simp⟩
    · exact ⟨_, _, hl.2.1, hl.2.2.1, by simp [hfield, land_lor_self, hbold],
        by simp, by simp [hfield, land_lor_self]⟩
    · exact ⟨_, _, hl.2.2.1, hl.2.2.2.1, by simp [hfield, land_lor_self, hne],
        by simp [hfield, land_lor_self], by simp⟩
    · exact ⟨_, _, hl.2.2.2.1, hl.2.2.2.2.1, by simp [hfield, land_lor_self, hbold],
        by simp, by simp [hfield, land_lor_self]⟩
    · exact ⟨_, _, hl.2.2.2.2.1, hl.2.2.2.2.2.1, by simp [hfield, land_lor_self, hne],
        by simp [hfield, land_lor_self], by simp⟩
    · exact ⟨_, _, hl.2.2.2.2.2.1, hl.2.2.2.2.2.2.1, by simp [hfield, land_lor_self, hbold],
        by simp, by simp [hfield, land_lor_self]⟩
    · exact ⟨_, _, hl.2.2.2.2.2.2.1, hl.2.2.2.2.2.2.2, by simp [hfield, land_lor_self, hne],
        by simp [hfield, land_lor_self], by simp⟩
    · exact ⟨_, _, hl.2.2.2.2.2.2.2, hl.1, by simp [hfield, land_lor_self, hbold],
        by simp, by simp [hfield, land_lor_self]⟩

theorem ncurses_pair_field (n : Int) : Int.land (ncurses.COLOR_PAIR n) ncurses.A_BOLD = 0 := by
  apply int_eq_zero_of_testBit
  intro k
  show (Int.land (Int.land (n * 256) 65280) 2097152).testBit k = false
  rw [Int.testBit_land, Int.testBit_land]
  have h0 : (Int.land 65280 2097152).testBit k = false := by
    have : Int.land 65280 2097152 = 0 := by decide
    rw [this]
    simp [Int.testBit]
  rw [Int.testBit_land] at h0
  cases h1 : Int.testBit 65280 k <;> cases h2 : Int.testBit 2097152 k <;>
    simp [h1, h2] at h0 ⊢

/-- Witness of C17: the ncurses encodings, in the table after one call of
`next_highlight`, whose cursor is 1. -/
theorem highlight_bold_alternates_witness :
    ∃ e1 e2,
      attrs_for_role (next_highlight (view_colors.ctor ncurses)).2
          (next_highlight (next_highlight (view_colors.ctor ncurses)).2).1 = some e1
        ∧ attrs_for_role (next_highlight (view_colors.ctor ncurses)).2
          (next_highlight (next_highlight (next_highlight (view_colors.ctor ncurses)).2).2).1
            = some e2
        ∧ Int.land e1 ncurses.A_BOLD ≠ Int.land e2 ncurses.A_BOLD :=
  have h := (highlight_bold_alternates ncurses (next_highlight (view_colors.ctor ncurses)).2
    ncurses_pair_field (by decide) (reachable.step reachable.ctor)).2
  h.elim fun e1 h1 => h1.elim fun e2 h2 => ⟨e1, e2, h2.1, h2.2.1, h2.2.2.1⟩

/-- Counterexample to C17: in the ncurses encoding the eighth and the ninth
call of `next_highlight` on a fresh table, the wrap-around, return the roles
18 and 11, whose encodings are bold (bit 21 set) and plain (bit 21 clear), in
this order: bold first and plain second. -/
theorem highlight_bold_then_plain :
    (next_highlight (after_highlights 7 (view_colors.ctor ncurses))).1 = 18
      ∧ (next_highlight (after_highlights 8 (view_colors.ctor ncurses))).1 = 11
      ∧ attrs_for_role (view_colors.ctor ncurses) 18 = some 2098176
      ∧ attrs_for_role (view_colors.ctor ncurses) 11 = some 256
      ∧ Int.land 2098176 ncurses.A_BOLD = ncurses.A_BOLD
      ∧ Int.land 256 ncurses.A_BOLD = 0
      ∧ ncurses.A_BOLD ≠ 0
      ∧ ¬ (Int.land 2098176 ncurses.A_BOLD = 0
          ∧ Int.land 256 ncurses.A_BOLD = ncurses.A_BOLD) := by
  decide

/-- The reverse encodings of the eight highlight roles of the constructed
table. -/
theorem ctor_highlight_reverse_attrs (c : curses_h) :
    reverse_attrs_for_role (view_colors.ctor c) 11
        = some (Int.lor (c.COLOR_PAIR (1 + HL_COLOR_COUNT)) c.A_REVERSE)
      ∧ reverse_attrs_for_role (view_colors.ctor c) 12
        = some (Int.lor (Int.lor (c.COLOR_PAIR 1) c.A_BOLD) c.A_REVERSE)
      ∧ reverse_attrs_for_role (view_colors.ctor c) 13
        = some (Int.lor (c.COLOR_PAIR (2 + HL_COLOR_COUNT)) c.A_REVERSE)
      ∧ reverse_attrs_for_role (view_colors.ctor c) 14
        = some (Int.lor (Int.lor (c.COLOR_PAIR 2) c.A_BOLD) c.A_REVERSE)
      ∧ reverse_attrs_for_role (view_colors.ctor c) 15
        = some (Int.lor (c.COLOR_PAIR (3 + HL_COLOR_COUNT)) c.A_REVERSE)
      ∧ reverse_attrs_for_role (view_colors.ctor c) 16
        = some (Int.lor (Int.lor (c.COLOR_PAIR 3) c.A_BOLD) c.A_REVERSE)
      ∧ reverse_attrs_for_role (view_colors.ctor c) 17
        = some (Int.lor (c.COLOR_PAIR (4 + HL_COLOR_COUNT)) c.A_REVERSE)
      ∧ reverse_attrs_for_role (view_colors.ctor c) 18
        = some (Int.lor (Int.lor (c.COLOR_PAIR 4) c.A_BOLD) c.A_REVERSE) := by
  simp only [reverse_attrs_for_role, (ctor_arrays c).2]
  refine ⟨rfl, rfl, rfl, rfl, rfl, rfl, rfl, rfl⟩

/-- The encodings of a fixed role of the constructed table: the reverse one is
the normal one with `A_REVERSE` or-ed in. -/
theorem ctor_fixed_reverse_attrs (c : curses_h) (role : Int) (h0 : 0 ≤ role)
    (hmax : role < VCR__MAX) :
    ∃ attrs, attrs_for_role (view_colors.ctor c) role = some attrs
      ∧ reverse_attrs_for_role (view_colors.ctor c) role = some (Int.lor attrs c.A_REVERSE) := by
  have hm : role < 11 := hmax
  simp only [attrs_for_role, reverse_attrs_for_role, (ctor_arrays c).1, (ctor_arrays c).2]
  interval_cases role <;> exact ⟨_, rfl, rfl⟩

/-- C18 as the code has it: in every reachable state of the style table the
reverse encoding of a fixed role, and of a bold highlight role
`VCR__MAX + 2k + 1`, is the normal encoding with `A_REVERSE` or-ed in; the
reverse encoding of a plain highlight role `VCR__MAX + 2k` is
`COLOR_PAIR(k + 1 + HL_COLOR_COUNT) | A_REVERSE`, built on a colour pair other
than that of its normal encoding `COLOR_PAIR(k + 1)`. -/
theorem reverse_attrs_spec (c : curses_h) (vc : view_colors) (h : reachable c vc) :
    (∀ role : Int, 0 ≤ role → role < VCR__MAX →
        ∃ attrs, attrs_for_role vc role = some attrs
          ∧ reverse_attrs_for_role vc role = some (Int.lor attrs c.A_REVERSE))
      ∧ (∀ k : Int, 0 ≤ k → k ≤ 3 →
        ∃ attrs, attrs_for_role vc (VCR__MAX + 2 * k + 1) = some attrs
          ∧ reverse_attrs_for_role vc (VCR__MAX + 2 * k + 1)
            = some (Int.lor attrs c.A_REVERSE))
      ∧ (∀ k : Int, 0 ≤ k → k ≤ 3 →
        attrs_for_role vc (VCR__MAX + 2 * k) = some (c.COLOR_PAIR (k + 1))
          ∧ reverse_attrs_for_role vc (VCR__MAX + 2 * k)
            = some (Int.lor (c.COLOR_PAIR (k + 1 + HL_COLOR_COUNT)) c.A_REVERSE)) := by
  have hn := ctor_highlight_attrs c
  have hr := ctor_highlight_reverse_attrs c
  refine ⟨?_, ?_, ?_⟩
  · intro role h0 hmax
    rw [(reachable_attrs h role).1, (reachable_attrs h role).2]
    exact ctor_fixed_reverse_attrs c role h0 hmax
  · intro k hk0 hk3
    rw [(reachable_attrs h _).1, (reachable_attrs h _).2]
    interval_cases k
    · exact ⟨_, hn.2.1, hr.2.1⟩
    · exact ⟨_, hn.2.2.2.1, hr.2.2.2.1⟩
    · exact ⟨_, hn.2.2.2.2.2.1, hr.2.2.2.2.2.1⟩
    · exact ⟨_, hn.2.2.2.2.2.2.2, hr.2.2.2.2.2.2.2⟩
  · intro k hk0 hk3
    rw [(reachable_attrs h _).1, (reachable_attrs h _).2]
    interval_cases k
    · exact ⟨hn.1, hr.1⟩
    · exact ⟨hn.2.2.1, hr.2.2.1⟩
    · exact ⟨hn.2.2.2.2.1, hr.2.2.2.2.1⟩
    · exact ⟨hn.2.2.2.2.2.2.1, hr.2.2.2.2.2.2.1⟩

/-- Witness of C18: the ncurses table after one call of `next_highlight`, at
the role VCR_ERROR. -/
theorem reverse_attrs_spec_witness :
    ∃ attrs, attrs_for_role (next_highlight (view_colors.ctor ncurses)).2 VCR_ERROR = some attrs
      ∧ reverse_attrs_for_role (next_highlight (view_colors.ctor ncurses)).2 VCR_ERROR
        = some (Int.lor attrs ncurses.A_REVERSE) :=
  (reverse_attrs_spec ncurses (next_highlight (view_colors.ctor ncurses)).2
    (reachable.step reachable.ctor)).1 VCR_ERROR (by decide) (by decide)

/-- Counterexample to C18: in the ncurses encoding the plain highlight role
`VCR__MAX` has the normal encoding COLOR_PAIR(1) = 256 and the reverse
encoding COLOR_PAIR(5) | A_REVERSE = 263424, which is not
256 | A_REVERSE = 262400. -/
theorem reverse_attrs_of_plain_highlight :
    attrs_for_role (view_colors.ctor ncurses) VCR__MAX = some 256
      ∧ reverse_attrs_for_role (view_colors.ctor ncurses) VCR__MAX = some 263424
      ∧ Int.lor 256 ncurses.A_REVERSE = 262400
      ∧ reverse_attrs_for_role (view_colors.ctor ncurses) VCR__MAX
        ≠ (attrs_for_role (view_colors.ctor ncurses) VCR__MAX).map
            (fun attrs => Int.lor attrs ncurses.A_REVERSE) := by
  decide

/-- C19: in every state of the style table reachable from the constructor by
calls of `next_highlight` the highlight cursor lies in `[0, 8)`; the role that
`next_highlight` returns lies in `[VCR__MAX, VCR__MAX + 8)`, and in every
reachable state `attrs_for_role` and `reverse_attrs_for_role` pass their
assertions on it and read inside the role arrays. -/
theorem next_highlight_role_valid (c : curses_h) (vc vc2 : view_colors)
    (h : reachable c vc) (h2 : reachable c vc2) :
    (0 ≤ vc.vc_next_highlight ∧ vc.vc_next_highlight < HL_COLOR_COUNT * 2)
      ∧ (VCR__MAX ≤ (next_highlight vc).1
          ∧ (next_highlight vc).1 < VCR__MAX + HL_COLOR_COUNT * 2)
      ∧ attrs_for_role vc2 (next_highlight vc).1
          = some (aget vc2.vc_role_colors (next_highlight vc).1)
      ∧ reverse_attrs_for_role vc2 (next_highlight vc).1
          = some (aget vc2.vc_role_reverse_colors (next_highlight vc).1)
      ∧ ((next_highlight vc).1.toNat < vc2.vc_role_colors.length
          ∧ (next_highlight vc).1.toNat < vc2.vc_role_reverse_colors.length) := by
  have hc := reachable_cursor h
  have hrole : (next_highlight vc).1 = VCR__MAX + vc.vc_next_highlight := rfl
  have hmax : VCR__MAX = 11 := rfl
  have hcount : HL_COLOR_COUNT * 2 = 8 := rfl
  have harr := reachable_arrays h2
  have hlen1 : vc2.vc_role_colors.length = 19 := by
    rw [harr.1, (ctor_arrays c).1]; rfl
  have hlen2 : vc2.vc_role_reverse_colors.length = 19 := by
    rw [harr.2, (ctor_arrays c).2]; rfl
  have hge : (next_highlight vc).1 ≥ 0 := by omega
  have hlt : (next_highlight vc).1 < VCR__MAX + HL_COLOR_COUNT * 2 := by omega
  refine ⟨by omega, ⟨by omega, hlt⟩, ?_, ?_, ?_⟩
  · simp only [attrs_for_role, hge, hlt, not_true_eq_false, if_false]
  · simp only [reverse_attrs_for_role, hge, hlt, not_true_eq_false, if_false]
  · rw [hlen1, hlen2]
    omega

/-- Witness of C19: the role returned in the state after three calls, looked
up in the state after one call. -/
theorem next_highlight_role_valid_witness :
    attrs_for_role (next_highlight (view_colors.ctor ncurses)).2
        (next_highlight (after_highlights 3 (view_colors.ctor ncurses))).1
      = some (aget (next_highlight (view_colors.ctor ncurses)).2.vc_role_colors
          (next_highlight (after_highlights 3 (view_colors.ctor ncurses))).1) :=
  (next_highlight_role_valid ncurses (after_highlights 3 (view_colors.ctor ncurses))
    (next_highlight (view_colors.ctor ncurses)).2
    (reachable.step (reachable.step (reachable.step reachable.ctor)))
    (reachable.step reachable.ctor)).2.2.1

/-! ## The scratch buffer -/

theorem clip_range_start (lr : line_range) (line_width : Int) (a : line_range) :
    (clip_range lr line_width a).lr_start = max 0 (a.lr_start - lr.lr_start) := by
  by_cases h : a.lr_end = -1 <;> simp [clip_range, h]

theorem clip_range_end_le (lr : line_range) (line_width : Int) (a : line_range) :
    (clip_range lr line_width a).lr_end ≤ line_width := by
  by_cases h : a.lr_end = -1 <;> simp [clip_range, h]

/-! ## The colour pairs of the style table -/

theorem registered_pairs_init :
    registered_pairs (view_colors.init true)
      = [VC_BLUE, VC_CYAN, VC_GREEN, VC_MAGENTA, VC_BLUE_ON_WHITE, VC_CYAN_ON_BLACK,
          VC_GREEN_ON_WHITE, VC_MAGENTA_ON_WHITE, VC_RED, VC_YELLOW, VC_WHITE,
          VC_BLACK_ON_WHITE, VC_RED_ON_WHITE, VC_YELLOW_ON_WHITE, VC_WHITE_ON_GREEN] := rfl

/-- C11: the constructor bakes into the normal and reverse encodings of the
`VCR__MAX + 8` roles only colour pairs that `view_colors::init` registers when
the driver has colours: the two role arrays depend on `COLOR_PAIR` only
through its values at the registered pair indices, and in the ncurses encoding
the pair number held by every entry of either array is a registered one. -/
theorem ctor_pairs_registered :
    (∀ c c2 : curses_h,
        c.A_REVERSE = c2.A_REVERSE → c.A_DIM = c2.A_DIM → c.A_BOLD = c2.A_BOLD →
        (∀ n ∈ registered_pairs (view_colors.init true), c.COLOR_PAIR n = c2.COLOR_PAIR n) →
        (view_colors.ctor c).vc_role_colors = (view_colors.ctor c2).vc_role_colors
          ∧ (view_colors.ctor c).vc_role_reverse_colors
            = (view_colors.ctor c2).vc_role_reverse_colors)
      ∧ (∀ role : Int, 0 ≤ role → role < VCR__MAX + HL_COLOR_COUNT * 2 →
        PAIR_NUMBER (aget (view_colors.ctor ncurses).vc_role_colors role)
            ∈ registered_pairs (view_colors.init true)
          ∧ PAIR_NUMBER (aget (view_colors.ctor ncurses).vc_role_reverse_colors role)
            ∈ registered_pairs (view_colors.init true)) := by
  constructor
  · intro c c2 hrev hdim hbold hpair
    have p1 := hpair 1 (by decide)
    have p2 := hpair 2 (by decide)
    have p3 := hpair 3 (by decide)
    have p4 := hpair 4 (by decide)
    have p5 : c.COLOR_PAIR (1 + HL_COLOR_COUNT) = c2.COLOR_PAIR (1 + HL_COLOR_COUNT) :=
      hpair 5 (by decide)
    have p6 : c.COLOR_PAIR (2 + HL_COLOR_COUNT) = c2.COLOR_PAIR (2 + HL_COLOR_COUNT) :=
      hpair 6 (by decide)
    have p7 : c.COLOR_PAIR (3 + HL_COLOR_COUNT) = c2.COLOR_PAIR (3 + HL_COLOR_COUNT) :=
      hpair 7 (by decide)
    have p8 : c.COLOR_PAIR (4 + HL_COLOR_COUNT) = c2.COLOR_PAIR (4 + HL_COLOR_COUNT) :=
      hpair 8 (by decide)
    have pw : c.COLOR_PAIR VC_WHITE = c2.COLOR_PAIR VC_WHITE := hpair 11 (by decide)
    have pg : c.COLOR_PAIR VC_GREEN = c2.COLOR_PAIR VC_GREEN := hpair 3 (by decide)
    have pr : c.COLOR_PAIR VC_RED = c2.COLOR_PAIR VC_RED := hpair 9 (by decide)
    have py : c.COLOR_PAIR VC_YELLOW = c2.COLOR_PAIR VC_YELLOW := hpair 10 (by decide)
    have pbw : c.COLOR_PAIR VC_BLACK_ON_WHITE = c2.COLOR_PAIR VC_BLACK_ON_WHITE :=
      hpair 12 (by decide)
    have pyw : c.COLOR_PAIR VC_YELLOW_ON_WHITE = c2.COLOR_PAIR VC_YELLOW_ON_WHITE :=
      hpair 13 (by decide)
    have prw : c.COLOR_PAIR VC_RED_ON_WHITE = c2.COLOR_PAIR VC_RED_ON_WHITE :=
      hpair 14 (by decide)
    have pgw : c.COLOR_PAIR VC_GREEN_ON_WHITE = c2.COLOR_PAIR VC_GREEN_ON_WHITE :=
      hpair 7 (by decide)
    rw [(ctor_arrays c).1, (ctor_arrays c).2, (ctor_arrays c2).1, (ctor_arrays c2).2]
    simp only [p1, p2, p3, p4, p5, p6, p7, p8, pw, pg, pr, py, pbw, pyw, prw, pgw, hrev, hdim,
      hbold, and_self]
  · intro role h0 h19
    have h19b : role < 19 := h19
    interval_cases role <;> decide

/-- Witness of C11: the ncurses macros, and the same with another value of
`COLOR_PAIR` at the index 0 and at the indices above 15. -/
theorem ctor_pairs_registered_witness :
    (view_colors.ctor ncurses).vc_role_colors
      = (view_colors.ctor
          { ncurses with
            COLOR_PAIR := fun n => if 1 ≤ n ∧ n ≤ 15 then ncurses.COLOR_PAIR n else 77 }).vc_role_colors :=
  (ctor_pairs_registered.1 ncurses
    { ncurses with
      COLOR_PAIR := fun n => if 1 ≤ n ∧ n ≤ 15 then ncurses.COLOR_PAIR n else 77 }
    rfl rfl rfl (by decide)).1

/-! ## Ranges that start right of the viewport -/

/-- C6 at the line "abcdefghij", the viewport [0,3) drawn at column 0 and the
unbounded range [5,-1): the viewport is finite and 3 columns wide, the range
is valid, and its clipped end is the width 3; its clipped start is 5, so the
paint test passes and the read-back and the re-write are called at column 5,
right of the right edge 3, with the count -2: the painted span starts at
column 5 and has no end at the right edge. -/
theorem unbounded_range_right_of_viewport :
    clipped_range "abcdefghij".toList ⟨0, 3⟩ ⟨5, -1⟩ = ⟨5, 3⟩
      ∧ line_range.length ⟨0, 3⟩ = 3
      ∧ overlay (expansion "abcdefghij".toList).2 0 0 ⟨0, 3⟩ (line_range.length ⟨0, 3⟩)
          (⟨5, -1⟩, [("style", ncurses.A_BOLD)])
        = some [Op.mvwinnstr 0 5 (-2), Op.wattron 2097152, Op.mvwaddnstr 0 5 (-2),
            Op.wattroff 2097152]
      ∧ painted_span
          [Op.mvwinnstr 0 5 (-2), Op.wattron 2097152, Op.mvwaddnstr 0 5 (-2),
            Op.wattroff 2097152]
        = [(5, none)] := by
  decide

/-- C20 at the line "abcdef", the viewport [0,3) and the range [5,6): the
viewport has 0 <= start <= end, the range is valid and passes the paint test
with the clipped range [5,3); the scratch buffer has 4 bytes and the read-back
is called with the count -2, for which the bytes stored are not bounded by
the count. -/
theorem read_back_negative_count :
    clipped_range "abcdef".toList ⟨0, 3⟩ ⟨5, 6⟩ = ⟨5, 3⟩
      ∧ (clipped_range "abcdef".toList ⟨0, 3⟩ ⟨5, 6⟩).lr_end > 0
      ∧ buffer_size ⟨0, 3⟩ = 4
      ∧ overlay (expansion "abcdef".toList).2 0 0 ⟨0, 3⟩ (line_range.length ⟨0, 3⟩)
          (⟨5, 6⟩, [])
        = some [Op.mvwinnstr 0 5 (-2), Op.wattron 0, Op.mvwaddnstr 0 5 (-2), Op.wattroff 0]
      ∧ read_back_bytes
          [Op.mvwinnstr 0 5 (-2), Op.wattron 0, Op.mvwaddnstr 0 5 (-2), Op.wattroff 0]
        = [none] := by
  decide

/-- For a viewport with a finite end and a positive width and a valid style
range whose end is -1 and whose clipped start is not right of the viewport,
the clipped end is the width of the viewport, whatever the text and its tabs,
and the span painted runs from the clipped start to surface column `x` +
width, the right edge of the viewport. -/
theorem overlay_unbounded_end_in_view (line : List Char) (y x : Int) (lr : line_range)
    (r : line_range) (am : attrs_map_t)
    (hfinite : lr.lr_end ≠ -1) (hwidth : 0 < lr.lr_end - lr.lr_start)
    (hstart : 0 ≤ r.lr_start) (hend : r.lr_end = -1)
    (hview : (clipped_range line lr r).lr_start ≤ lr.lr_end - lr.lr_start) :
    (clipped_range line lr r).lr_end = lr.lr_end - lr.lr_start
      ∧ overlay (expansion line).2 y x lr lr.length (r, am)
        = some
          [Op.mvwinnstr y (x + (clipped_range line lr r).lr_start)
              (lr.lr_end - lr.lr_start - (clipped_range line lr r).lr_start),
            Op.wattron (style_attrs am),
            Op.mvwaddnstr y (x + (clipped_range line lr r).lr_start)
              (lr.lr_end - lr.lr_start - (clipped_range line lr r).lr_start),
            Op.wattroff (style_attrs am)]
      ∧ (∀ ops, overlay (expansion line).2 y x lr lr.length (r, am) = some ops →
          painted_span ops
            = [(x + (clipped_range line lr r).lr_start,
                some (x + (lr.lr_end - lr.lr_start)))]) := by
  have hlen : lr.length = lr.lr_end - lr.lr_start := by
    simp [line_range.length, hfinite]
  have hremap : (remap_range (expansion line).2 r).lr_end = -1 := by
    simp [remap_range, hend]
  have hclip : (clipped_range line lr r).lr_end = lr.lr_end - lr.lr_start := by
    simp [clipped_range, clip_range, hremap, hlen]
  have hpaint : (clipped_range line lr r).lr_end > 0 := by
    rw [hclip]; exact hwidth
  have hov := overlay_of_valid (expansion line).2 y x lr lr.length r am hstart (by omega)
  rw [show clip_range lr lr.length (remap_range (expansion line).2 r) = clipped_range line lr r
    from rfl, paint_range_of_pos _ _ _ _ hpaint, hclip] at hov
  refine ⟨hclip, hov, ?_⟩
  intro ops hops
  rw [hov] at hops
  cases hops
  have hcount : ¬ (lr.lr_end - lr.lr_start - (clipped_range line lr r).lr_start < 0) := by
    omega
  simp only [painted_span, List.filterMap_cons, List.filterMap_nil, hcount, if_false,
    List.cons.injEq, Prod.mk.injEq, Option.some.injEq, true_and, and_true]
  omega

/-- The line "a\tbcdefghijklmnop", 24 columns once expanded, in the viewport
[2,7) drawn at column 10, with the unbounded range [1,-1). -/
theorem overlay_unbounded_end_in_view_witness :
    (clipped_range "a\tbcdefghijklmnop".toList ⟨2, 7⟩ ⟨1, -1⟩).lr_end = 7 - 2
      ∧ overlay (expansion "a\tbcdefghijklmnop".toList).2 0 10 ⟨2, 7⟩
          (line_range.length ⟨2, 7⟩) (⟨1, -1⟩, [("style", 2097152)])
        = some [Op.mvwinnstr 0 10 5, Op.wattron 2097152, Op.mvwaddnstr 0 10 5,
            Op.wattroff 2097152] :=
  have h := overlay_unbounded_end_in_view "a\tbcdefghijklmnop".toList 0 10 ⟨2, 7⟩ ⟨1, -1⟩
    [("style", 2097152)] (by decide) (by decide) (by decide) (by decide) (by decide)
  ⟨h.1, by decide⟩

/-- For a viewport with 0 <= start <= end and a valid style range that passes
the paint test and whose clipped start is not right of its clipped end, the
clipped start is at least 0 and the clipped end at most the width of the
viewport; the read-back has a count from 0 to the width and stores, with the
byte that ends the string, no more than the `width + 1` bytes of the scratch
buffer. -/
theorem read_back_fits_in_view (line : List Char) (y x : Int) (lr r : line_range)
    (am : attrs_map_t)
    (hvs : 0 ≤ lr.lr_start) (hve : lr.lr_start ≤ lr.lr_end)
    (hstart : 0 ≤ r.lr_start) (hend : -1 ≤ r.lr_end)
    (hpaint : (clipped_range line lr r).lr_end > 0)
    (hview : (clipped_range line lr r).lr_start ≤ (clipped_range line lr r).lr_end) :
    0 ≤ (clipped_range line lr r).lr_start
      ∧ (clipped_range line lr r).lr_end ≤ lr.lr_end - lr.lr_start
      ∧ (∀ ops, overlay (expansion line).2 y x lr lr.length (r, am) = some ops →
          read_back_bytes ops
            = [some ((clipped_range line lr r).lr_end - (clipped_range line lr r).lr_start + 1)])
      ∧ 0 ≤ (clipped_range line lr r).lr_end - (clipped_range line lr r).lr_start
      ∧ (clipped_range line lr r).lr_end - (clipped_range line lr r).lr_start + 1
          ≤ buffer_size lr := by
  have hfin : ¬ lr.lr_end = -1 := by omega
  have hlen : lr.length = lr.lr_end - lr.lr_start := by
    simp [line_range.length, hfin]
  have hcs : 0 ≤ (clipped_range line lr r).lr_start := by
    unfold clipped_range
    rw [clip_range_start]
    exact le_max_left _ _
  have hce : (clipped_range line lr r).lr_end ≤ lr.lr_end - lr.lr_start := by
    rw [← hlen]
    exact clip_range_end_le _ _ _
  have hov := overlay_of_valid (expansion line).2 y x lr lr.length r am hstart hend
  rw [show clip_range lr lr.length (remap_range (expansion line).2 r) = clipped_range line lr r
    from rfl, paint_range_of_pos _ _ _ _ hpaint] at hov
  refine ⟨hcs, hce, ?_, by omega, ?_⟩
  · intro ops hops
    rw [hov] at hops
    cases hops
    have hcount : ¬ ((clipped_range line lr r).lr_end - (clipped_range line lr r).lr_start < 0) := by
      omega
    simp only [read_back_bytes, List.filterMap_cons, List.filterMap_nil, hcount, if_false]
  · simp only [buffer_size, hlen]
    omega

/-- The range [1,9) of "hello world" in the viewport [2,7) clips to [0,5):
the read-back may store 6 bytes, the size of the buffer. -/
theorem read_back_fits_in_view_witness :
    (∀ ops, overlay (expansion "hello world".toList).2 0 0 ⟨2, 7⟩ (line_range.length ⟨2, 7⟩)
        (⟨1, 9⟩, [("style", 2097152)]) = some ops →
      read_back_bytes ops
        = [some ((clipped_range "hello world".toList ⟨2, 7⟩ ⟨1, 9⟩).lr_end
            - (clipped_range "hello world".toList ⟨2, 7⟩ ⟨1, 9⟩).lr_start + 1)])
      ∧ buffer_size ⟨2, 7⟩ = 6 :=
  ⟨(read_back_fits_in_view "hello world".toList 0 0 ⟨2, 7⟩ ⟨1, 9⟩ [("style", 2097152)]
    (by decide) (by decide) (by decide) (by decide) (by decide) (by decide)).2.2.1,
    by decide⟩

end ViewCurses
